import Mathlib

/-!
Verification of the thymus architectural-invariant scanner.

The Python sources are shallowly embedded: strings are `List Char` (with
`String` wrappers where convenient), Python dicts are association lists with
insertion-order semantics, Python sets are duplicate-free lists, fallible
operations return `Option`, and float percentages are modelled as `Rat`
(every value the claims touch is exactly representable).
-/

namespace Thymus

/-! ## Scope matcher (scripts/lib/core.py)

`glob_to_regex` in core.py turns a glob into a regex STRING by the pipeline
`. -> \.`, `** -> __DS__`, `* -> [^/]*`, `__DS__ -> .*` (each a left-to-right
non-overlapping replace), and `path_matches` runs Python `re.search` on
`^ <regex> $`.  We embed the pipeline literally over `List Char`
(`glob_to_regex`), and embed the regex engine by the token type `RTok`
(literal char, `.*`, `[^/]*`) with matcher `rmatch`; `globTokens` is the
direct token reading of a glob, and `glob_to_regex_plain_eq` below proves the
pipeline emits exactly the token string for plain glob patterns. -/

/-- Tokens of the regex fragment that the glob translation emits:
a literal character (`\c` or a plain char), `.*` (from `**`), and
`[^/]*` (from a single `*`). -/
inductive RTok where
  | lit (c : Char)
  | anyStar
  | segStar
deriving DecidableEq, Repr

/-- Direct token reading of a glob pattern: `**` becomes `.*` (scanned
left-to-right before a single `*`, as the replace pipeline does), a single
`*` becomes `[^/]*`, and every other character (including `.`, which the
pipeline escapes) is a literal. -/
def globTokens : List Char → List RTok
  | [] => []
  | '*' :: '*' :: rest => .anyStar :: globTokens rest
  | '*' :: rest => .segStar :: globTokens rest
  | c :: rest => .lit c :: globTokens rest

/-- Left-to-right non-overlapping replacement of `pat` by `rep`, the
semantics of Python `str.replace` (for a non-empty `pat`; the pipeline only
uses non-empty patterns). -/
def replaceStr (pat rep : List Char) (l : List Char) : List Char :=
  if h : pat = [] then l
  else
    match l with
    | [] => []
    | c :: rest =>
      if pat.isPrefixOf (c :: rest) then
        rep ++ replaceStr pat rep ((c :: rest).drop pat.length)
      else c :: replaceStr pat rep rest
termination_by l.length
decreasing_by
  · simp only [List.length_drop, List.length_cons]
    have hp : 0 < pat.length := List.length_pos.mpr h
    omega
  · simp

/-- Embeds core.py `glob_to_regex`: the four-stage replace pipeline producing
the regex string. -/
def glob_to_regex (pattern : List Char) : List Char :=
  let r1 := replaceStr ['.'] ['\\', '.'] pattern
  let r2 := replaceStr ['*', '*'] ['_', '_', 'D', 'S', '_', '_'] r1
  let r3 := replaceStr ['*'] ['[', '^', '/', ']', '*'] r2
  replaceStr ['_', '_', 'D', 'S', '_', '_'] ['.', '*'] r3

/-- Rendering of a token list back to regex text: `lit c` is `\.` for a dot
and the bare character otherwise, `anyStar` is `.*`, `segStar` is `[^/]*`.
This is the shape the pipeline emits for plain patterns. -/
def toksString : List RTok → List Char
  | [] => []
  | .lit '.' :: ts => '\\' :: '.' :: toksString ts
  | .lit c :: ts => c :: toksString ts
  | .anyStar :: ts => '.' :: '*' :: toksString ts
  | .segStar :: ts => '[' :: '^' :: '/' :: ']' :: '*' :: toksString ts

/-- Characters that the pipeline neither escapes nor translates but that the
Python regex engine treats specially; a pattern containing one of these is
outside the glob language the code means to support. -/
def plainChar (c : Char) : Prop :=
  c ≠ '\\' ∧ c ≠ '[' ∧ c ≠ ']' ∧ c ≠ '(' ∧ c ≠ ')' ∧ c ≠ '{' ∧ c ≠ '}' ∧
    c ≠ '+' ∧ c ≠ '?' ∧ c ≠ '|' ∧ c ≠ '^' ∧ c ≠ '$'

instance (c : Char) : Decidable (plainChar c) := by
  unfold plainChar; infer_instance

/-- Anchored matcher for the regex fragment: full-string matching of a token
list, with the standard backtracking reading of the two star forms.  This is
what `re.search` with the `^...$`-anchored translated pattern computes. -/
def rmatch (ps : List RTok) (s : List Char) : Bool :=
  match ps, s with
  | [], [] => true
  | [], _ :: _ => false
  | .lit _ :: _, [] => false
  | .lit c :: ps, x :: xs => x == c && rmatch ps xs
  | .anyStar :: ps', [] => rmatch ps' []
  | .anyStar :: ps', x :: xs =>
    rmatch ps' (x :: xs) || rmatch (.anyStar :: ps') xs
  | .segStar :: ps', [] => rmatch ps' []
  | .segStar :: ps', x :: xs =>
    rmatch ps' (x :: xs) || (!(x == '/') && rmatch (.segStar :: ps') xs)
termination_by (s.length, ps.length)

/-- Denotational language of a token list: `[]` accepts only the empty
string, a literal consumes exactly itself, `.*` consumes any prefix, and
`[^/]*` consumes any slash-free prefix. -/
def Lang : List RTok → List Char → Prop
  | [], s => s = []
  | .lit c :: ps, s => ∃ s', s = c :: s' ∧ Lang ps s'
  | .anyStar :: ps, s => ∃ u v, s = u ++ v ∧ Lang ps v
  | .segStar :: ps, s => ∃ u v, s = u ++ v ∧ (∀ x ∈ u, x ≠ '/') ∧ Lang ps v

theorem rmatch_iff_lang_aux :
    ∀ n ps s, List.length ps + List.length s ≤ n →
      (rmatch ps s = true ↔ Lang ps s) := by
  intro n
  induction n with
  | zero =>
    intro ps s h
    have hps : ps = [] := by
      cases ps <;> simp_all
    have hs : s = [] := by
      cases s <;> simp_all
    subst hps; subst hs
    simp [rmatch, Lang]
  | succ n ih =>
    intro ps s h
    match ps, s with
    | [], [] => simp [rmatch, Lang]
    | [], x :: xs => simp [rmatch, Lang]
    | .lit c :: ps', [] => simp [rmatch, Lang]
    | .lit c :: ps', x :: xs =>
      have hih := ih ps' xs (by simp at h ⊢; omega)
      simp only [rmatch, Lang, Bool.and_eq_true, beq_iff_eq, hih]
      constructor
      · rintro ⟨hx, hl⟩
        exact ⟨xs, ⟨by simp [hx], hl⟩⟩
      · rintro ⟨s', hs', hl⟩
        rcases List.cons_eq_cons.mp hs' with ⟨hx, hxs⟩
        subst hx; subst hxs
        exact ⟨rfl, hl⟩
    | .anyStar :: ps', [] =>
      have hih := ih ps' [] (by simp at h ⊢; omega)
      simp only [rmatch, Lang, hih]
      constructor
      · intro hl
        exact ⟨[], [], rfl, hl⟩
      · rintro ⟨u, v, huv, hl⟩
        rcases List.append_eq_nil.mp huv.symm with ⟨hu, hv⟩
        subst hu; subst hv
        exact hl
    | .anyStar :: ps', x :: xs =>
      simp only [rmatch, Lang, Bool.or_eq_true]
      constructor
      · intro hm
        rcases hm with h1 | h2
        · exact ⟨[], x :: xs, by simp,
            ((ih ps' (x :: xs) (by simp at h ⊢; omega)).mp h1)⟩
        · have := (ih (.anyStar :: ps') xs (by simp at h ⊢; omega)).mp h2
          rcases this with ⟨u, v, huv, hl⟩
          exact ⟨x :: u, v, by simp [huv], hl⟩
      · rintro ⟨u, v, huv, hl⟩
        rcases u with _ | ⟨y, u'⟩
        · simp only [List.nil_append] at huv
          subst huv
          exact Or.inl ((ih ps' (x :: xs) (by simp at h ⊢; omega)).mpr hl)
        · rcases List.cons_eq_cons.mp huv with ⟨hx, hxs⟩
          subst hx; subst hxs
          exact Or.inr ((ih (.anyStar :: ps') (u' ++ v)
            (by simp at h ⊢; omega)).mpr ⟨u', v, rfl, hl⟩)
    | .segStar :: ps', [] =>
      have hih := ih ps' [] (by simp at h ⊢; omega)
      simp only [rmatch, Lang, hih]
      constructor
      · intro hl
        exact ⟨[], [], rfl, by simp, hl⟩
      · rintro ⟨u, v, huv, _, hl⟩
        rcases List.append_eq_nil.mp huv.symm with ⟨hu, hv⟩
        subst hu; subst hv
        exact hl
    | .segStar :: ps', x :: xs =>
      simp only [rmatch, Lang, Bool.or_eq_true, Bool.and_eq_true,
        Bool.not_eq_true', beq_eq_false_iff_ne, ne_eq]
      constructor
      · intro hm
        rcases hm with h1 | ⟨hx, h2⟩
        · exact ⟨[], x :: xs, by simp, by simp,
            ((ih ps' (x :: xs) (by simp at h ⊢; omega)).mp h1)⟩
        · have := (ih (.segStar :: ps') xs (by simp at h ⊢; omega)).mp h2
          rcases this with ⟨u, v, huv, hu, hl⟩
          refine ⟨x :: u, v, by simp [huv], ?_, hl⟩
          intro y hy
          rcases List.mem_cons.mp hy with hy | hy
          · subst hy; exact hx
          · exact hu y hy
      · rintro ⟨u, v, huv, hu, hl⟩
        rcases u with _ | ⟨y, u'⟩
        · simp only [List.nil_append] at huv
          subst huv
          exact Or.inl ((ih ps' (x :: xs) (by simp at h ⊢; omega)).mpr hl)
        · rcases List.cons_eq_cons.mp huv with ⟨hx, hxs⟩
          subst hx; subst hxs
          refine Or.inr ⟨hu x (List.mem_cons_self x u'), ?_⟩
          exact (ih (.segStar :: ps') (u' ++ v) (by simp at h ⊢; omega)).mpr
            ⟨u', v, rfl, fun z hz => hu z (List.mem_cons_of_mem x hz), hl⟩

/-- The executable matcher decides the denotational language. -/
theorem rmatch_iff_lang (ps : List RTok) (s : List Char) :
    rmatch ps s = true ↔ Lang ps s :=
  rmatch_iff_lang_aux (ps.length + s.length) ps s le_rfl

/-- Embeds core.py `path_matches`: full (anchored) match of the path against
the translated glob.  The regex engine applied to the anchored pipeline
output is embedded as `rmatch` over the token reading of the glob; see
`glob_to_regex_plain_eq` for the proof that for plain patterns the pipeline
emits exactly that token string. -/
def path_matches (path : String) (glob_pattern : String) : Bool :=
  rmatch (globTokens glob_pattern.data) path.data

/-! Correspondence between the replace pipeline and the token reading. -/

/-- Rendering of tokens with the `__DS__` placeholder still in place for
`anyStar`: the shape of the pipeline after its first three stages. -/
def toksDS : List RTok → List Char
  | [] => []
  | .lit '.' :: ts => '\\' :: '.' :: toksDS ts
  | .lit c :: ts => c :: toksDS ts
  | .anyStar :: ts => '_' :: '_' :: 'D' :: 'S' :: '_' :: '_' :: toksDS ts
  | .segStar :: ts => '[' :: '^' :: '/' :: ']' :: '*' :: toksDS ts

/-- The token string is free of accidental occurrences of the `__DS__`
placeholder: wherever the rendered form has `__DS__` as a prefix, that
position is an actual `anyStar` placeholder.  Glob patterns whose literal
text collides with the placeholder (for example a literal `__DS` directly
followed by `**`) are mistranslated by the pipeline and are excluded from
the plain-pattern class by this condition. -/
def cleanToks : List RTok → Prop
  | [] => True
  | .anyStar :: ts => cleanToks ts
  | t :: ts =>
    ¬ (['_', '_', 'D', 'S', '_', '_'].isPrefixOf (toksDS (t :: ts))) ∧
      cleanToks ts

instance : ∀ ts, Decidable (cleanToks ts)
  | [] => by unfold cleanToks; infer_instance
  | .lit c :: ts =>
    have : Decidable (cleanToks ts) := instDecidableCleanToks ts
    by unfold cleanToks; infer_instance
  | .anyStar :: ts =>
    have : Decidable (cleanToks ts) := instDecidableCleanToks ts
    by unfold cleanToks; infer_instance
  | .segStar :: ts =>
    have : Decidable (cleanToks ts) := instDecidableCleanToks ts
    by unfold cleanToks; infer_instance

/-- A plain glob pattern: every character is plain and the translated token
string is free of accidental placeholder occurrences. -/
def plainPattern (p : List Char) : Prop :=
  (∀ c ∈ p, plainChar c) ∧ cleanToks (globTokens p)

instance (p : List Char) : Decidable (plainPattern p) := by
  unfold plainPattern; infer_instance

theorem replaceStr_nil (pat rep : List Char) : replaceStr pat rep [] = [] := by
  rw [replaceStr]
  split <;> rfl

theorem replaceStr_cons_miss {pat : List Char} (rep : List Char)
    {c : Char} {t : List Char} (hpat : pat ≠ [])
    (h : ¬ pat.isPrefixOf (c :: t)) :
    replaceStr pat rep (c :: t) = c :: replaceStr pat rep t := by
  rw [replaceStr]
  simp [hpat, h]

theorem replaceStr_hit {pat : List Char} (rep : List Char)
    (x : List Char) (hpat : pat ≠ []) :
    replaceStr pat rep (pat ++ x) = rep ++ replaceStr pat rep x := by
  match pat, hpat with
  | a :: pat', _ =>
    rw [show (a :: pat') ++ x = a :: (pat' ++ x) from rfl, replaceStr]
    have hpre : (a :: pat').isPrefixOf (a :: (pat' ++ x)) := by
      simp [List.isPrefixOf_iff_prefix]
    simp only [hpre, if_true, reduceDIte]
    congr 1
    have : ((a :: pat') ++ x).drop (a :: pat').length = x :=
      List.drop_left _ _
    simpa using this

theorem not_prefix_of_head_ne {q c : Char} (pat' : List Char)
    (t : List Char) (h : q ≠ c) :
    ¬ (q :: pat').isPrefixOf (c :: t) := by
  simp [List.isPrefixOf_iff_prefix, List.cons_prefix_cons, h]

theorem replaceStr_append_of_head_not_mem {q : Char} {pat' : List Char}
    (rep : List Char) (a x : List Char) (h : q ∉ a) :
    replaceStr (q :: pat') rep (a ++ x) = a ++ replaceStr (q :: pat') rep x := by
  induction a with
  | nil => simp
  | cons c a' ih =>
    have hqc : q ≠ c := by
      intro he
      exact h (he ▸ List.mem_cons_self c a')
    rw [List.cons_append,
      replaceStr_cons_miss rep (by simp) (not_prefix_of_head_ne _ _ hqc),
      ih (fun hm => h (List.mem_cons_of_mem c hm)), List.cons_append]

theorem replaceStr_single_cons (q : Char) (rep : List Char) (c : Char)
    (t : List Char) :
    replaceStr [q] rep (c :: t) =
      (if c = q then rep else [c]) ++ replaceStr [q] rep t := by
  by_cases hcq : c = q
  · subst hcq
    simpa using @replaceStr_hit [c] rep t (by simp)
  · rw [replaceStr_cons_miss rep (by simp)
      (not_prefix_of_head_ne _ _ (fun he => hcq he.symm))]
    simp [hcq]

theorem globTokens_lit {c : Char} (h : c ≠ '*') (rest : List Char) :
    globTokens (c :: rest) = .lit c :: globTokens rest := by
  rw [globTokens.eq_def]
  rcases rest with _ | ⟨d, rest'⟩ <;> simp [h]

theorem toksDS_lit {c : Char} (h : c ≠ '.') (ts : List RTok) :
    toksDS (.lit c :: ts) = c :: toksDS ts := by
  rw [toksDS.eq_def]
  simp [h]

theorem toksString_lit {c : Char} (h : c ≠ '.') (ts : List RTok) :
    toksString (.lit c :: ts) = c :: toksString ts := by
  rw [toksString.eq_def]
  simp [h]

/-- First three pipeline stages rewrite a glob into the token string with the
placeholder still in place.  This holds for every pattern. -/
theorem stage123_eq_toksDS (p : List Char) :
    replaceStr ['*'] ['[', '^', '/', ']', '*']
      (replaceStr ['*', '*'] ['_', '_', 'D', 'S', '_', '_']
        (replaceStr ['.'] ['\\', '.'] p)) = toksDS (globTokens p) := by
  induction p using globTokens.induct with
  | case1 => simp [replaceStr_nil, globTokens, toksDS]
  | case2 rest ih =>
    rw [replaceStr_single_cons, replaceStr_single_cons]
    simp only [if_neg (by decide : ¬ ('*' = '.')), List.singleton_append,
      List.cons_append, List.nil_append]
    rw [show ('*' :: '*' :: replaceStr ['.'] ['\\', '.'] rest) =
      ['*', '*'] ++ replaceStr ['.'] ['\\', '.'] rest from rfl,
      replaceStr_hit _ _ (by simp),
      replaceStr_append_of_head_not_mem _ _ _ (by decide)]
    rw [globTokens, toksDS]
    simp [ih]
  | case3 rest h2 ih =>
    rw [replaceStr_single_cons]
    simp only [if_neg (by decide : ¬ ('*' = '.')), List.singleton_append]
    have hr1head : ¬ (['*', '*'].isPrefixOf
        ('*' :: replaceStr ['.'] ['\\', '.'] rest)) := by
      match rest with
      | [] =>
        simp [replaceStr_nil, List.isPrefixOf_iff_prefix, List.cons_prefix_cons]
      | d :: rest' =>
        have hd : d ≠ '*' := by
          intro he
          exact h2 rest' (by rw [he])
        rw [replaceStr_single_cons]
        by_cases hdd : d = '.'
        · subst hdd
          simp [List.isPrefixOf_iff_prefix, List.cons_prefix_cons]
        · have hds : ¬ ('*' = d) := fun he => hd he.symm
          simp [hdd, List.isPrefixOf_iff_prefix, List.cons_prefix_cons, hds]
    rw [replaceStr_cons_miss _ (by simp) hr1head]
    rw [show ('*' :: replaceStr ['*', '*'] ['_', '_', 'D', 'S', '_', '_']
        (replaceStr ['.'] ['\\', '.'] rest)) =
      ['*'] ++ replaceStr ['*', '*'] ['_', '_', 'D', 'S', '_', '_']
        (replaceStr ['.'] ['\\', '.'] rest) from rfl,
      replaceStr_hit _ _ (by simp)]
    match rest, h2 with
    | [], _ =>
      simp [replaceStr_nil, globTokens, toksDS]
    | d :: rest', h2 =>
      have hd : d ≠ '*' := by
        intro he
        exact h2 rest' (by rw [he])
      rw [show globTokens ('*' :: d :: rest') =
        .segStar :: globTokens (d :: rest') from by
          rw [globTokens.eq_def]
          simp [hd]]
      rw [toksDS]
      simp [ih]
  | case4 c rest h1 h2 ih =>
    have hc : c ≠ '*' := h2
    rw [replaceStr_single_cons]
    by_cases hcd : c = '.'
    · subst hcd
      simp only [if_pos rfl, if_true]
      rw [show (['\\', '.'] ++ replaceStr ['.'] ['\\', '.'] rest) =
        ['\\', '.'] ++ replaceStr ['.'] ['\\', '.'] rest from rfl,
        replaceStr_append_of_head_not_mem _ _ _ (by decide),
        replaceStr_append_of_head_not_mem _ _ _ (by decide)]
      rw [globTokens_lit (by decide), toksDS]
      simp [ih]
    · simp only [if_neg hcd, List.singleton_append]
      have hpre2 : ¬ (['*', '*'].isPrefixOf
          (c :: replaceStr ['.'] ['\\', '.'] rest)) :=
        not_prefix_of_head_ne _ _ (fun he => hc he.symm)
      rw [replaceStr_cons_miss _ (by simp) hpre2]
      have hpre3 : ¬ (['*'].isPrefixOf
          (c :: replaceStr ['*', '*'] ['_', '_', 'D', 'S', '_', '_']
            (replaceStr ['.'] ['\\', '.'] rest))) :=
        not_prefix_of_head_ne _ _ (fun he => hc he.symm)
      rw [replaceStr_cons_miss _ (by simp) hpre3]
      rw [globTokens_lit hc, toksDS_lit hcd]
      simp [ih]

theorem stage4_eq : ∀ ts : List RTok, cleanToks ts →
    replaceStr ['_', '_', 'D', 'S', '_', '_'] ['.', '*'] (toksDS ts) =
      toksString ts := by
  intro ts
  induction ts with
  | nil => intro _; simp [toksDS, toksString, replaceStr_nil]
  | cons t ts ih =>
    intro hc
    match t with
    | .anyStar =>
      have hts : cleanToks ts := by
        rw [cleanToks.eq_def] at hc
        simpa using hc
      rw [show toksDS (.anyStar :: ts) =
        ['_', '_', 'D', 'S', '_', '_'] ++ toksDS ts from rfl,
        replaceStr_hit _ _ (by simp), ih hts]
      rfl
    | .segStar =>
      have hts : cleanToks ts := by
        rw [cleanToks.eq_def] at hc
        simp at hc
        exact hc.2
      rw [show toksDS (.segStar :: ts) =
        ['[', '^', '/', ']', '*'] ++ toksDS ts from rfl,
        replaceStr_append_of_head_not_mem _ _ _ (by decide), ih hts]
      rfl
    | .lit c =>
      have hc' : ¬ ((['_', '_', 'D', 'S', '_', '_'] : List Char).isPrefixOf
          (toksDS (.lit c :: ts))) ∧ cleanToks ts := by
        rw [cleanToks.eq_def] at hc
        simpa using hc
      by_cases hcd : c = '.'
      · subst hcd
        rw [show toksDS (.lit '.' :: ts) = ['\\', '.'] ++ toksDS ts from rfl,
          replaceStr_append_of_head_not_mem _ _ _ (by decide), ih hc'.2]
        rfl
      · rw [toksDS_lit hcd] at hc' ⊢
        rw [replaceStr_cons_miss _ (by simp) hc'.1, ih hc'.2,
          toksString_lit hcd]

/-- For a plain glob pattern the replace pipeline emits exactly the regex
text of the token reading; in particular the double star is translated to
`.*` before a single star can be translated to `[^/]*`. -/
theorem glob_to_regex_plain_eq (p : List Char)
    (h : cleanToks (globTokens p)) :
    glob_to_regex p = toksString (globTokens p) := by
  show replaceStr ['_', '_', 'D', 'S', '_', '_'] ['.', '*']
      (replaceStr ['*'] ['[', '^', '/', ']', '*']
        (replaceStr ['*', '*'] ['_', '_', 'D', 'S', '_', '_']
          (replaceStr ['.'] ['\\', '.'] p))) = toksString (globTokens p)
  rw [stage123_eq_toksDS, stage4_eq _ h]

/-! ## A partial model of Python regex compilation (for claims about
patterns whose translation is not a valid regex)

The regex engine itself is the Python `re` library, external to the
repository.  `pyRegexOk` models the syntactic checks `re.compile` performs
that are relevant to translated glob patterns: an unmatched `(` or `)`, an
unterminated `[` class, or a trailing backslash make `re.compile` raise
`re.error`.  A pattern rejected by `pyRegexOk` is one on which the Python
code raises instead of returning a boolean; this is modelled by the
`Option`-valued variants below returning `none`. -/

/-- Consumes a bracket character class up to its closing `]`, returning the
remaining text, or `none` when the class is unterminated. -/
def pyClassRest : List Char → Option (List Char)
  | [] => none
  | '\\' :: [] => none
  | '\\' :: _ :: rest => pyClassRest rest
  | ']' :: rest => some rest
  | _ :: rest => pyClassRest rest

theorem pyClassRest_length :
    ∀ l r, pyClassRest l = some r → r.length ≤ l.length := by
  intro l
  induction l using pyClassRest.induct with
  | case1 => intro r h; simp [pyClassRest] at h
  | case2 => intro r h; simp [pyClassRest] at h
  | case3 c rest ih =>
    intro r h
    rw [pyClassRest] at h
    have := ih r h
    simp at this ⊢
    omega
  | case4 rest =>
    intro r h
    rw [pyClassRest] at h
    cases h
    simp
  | case5 c rest h1 h2 h3 ih =>
    intro r h
    have hred : pyClassRest (c :: rest) = pyClassRest rest := by
      rw [pyClassRest.eq_def]
      split
      all_goals simp_all
    rw [hred] at h
    have := ih r h
    simp
    omega

/-- Syntactic validity checks of Python `re.compile`, restricted to the
constructs reachable from a translated glob: parentheses must balance,
character classes must be terminated, and a backslash must escape a
character.  Returning `false` models `re.compile` raising `re.error`. -/
def pyRegexOk : List Char → Nat → Bool
  | [], d => d == 0
  | '\\' :: rest, d =>
    match rest with
    | [] => false
    | _ :: r2 => pyRegexOk r2 d
  | '(' :: rest, d => pyRegexOk rest (d + 1)
  | ')' :: rest, d => d != 0 && pyRegexOk rest (d - 1)
  | '[' :: rest, d =>
    match h : pyClassRest rest with
    | none => false
    | some r2 => pyRegexOk r2 d
  | _ :: rest, d => pyRegexOk rest d
termination_by l _ => l.length
decreasing_by
  all_goals first
    | (simp; omega)
    | (have h9 := pyClassRest_length rest r2 h
       simp
       omega)
    | simp

/-- Anchoring performed by `path_matches`: `re.search` is applied to
`^ <regex> $`. -/
def anchorRegex (r : List Char) : List Char := '^' :: r ++ ['$']

/-- Exception-aware variant of `path_matches`: `none` models the `re.error`
raised when the translated pattern does not compile. -/
def path_matches_opt (path glob_pattern : String) : Option Bool :=
  if pyRegexOk (anchorRegex (glob_to_regex glob_pattern.data)) 0 then
    some (path_matches path glob_pattern)
  else none

/-- Short-circuiting `or` over exception-aware booleans, matching Python
evaluation order of `a or b`. -/
def optOr (a : Option Bool) (b : Unit → Option Bool) : Option Bool :=
  match a with
  | none => none
  | some true => some true
  | some false => b ()

/-- Short-circuiting `any` loop over exception-aware booleans. -/
def anyOpt (f : α → Option Bool) : List α → Option Bool
  | [] => some false
  | x :: xs => optOr (f x) (fun _ => anyOpt f xs)

/-! ## Invariants, violations and the rule engine
(scripts/lib/core.py, scripts/lib/rules.py) -/

/-- Embeds the parsed invariant record (section 3 of the spec); fields that
a given rule type does not use keep their defaults, matching `dict.get`
defaults in the Python code. -/
structure Invariant where
  id : String := ""
  type : String := ""
  severity : String := ""
  description : String := ""
  source_glob : Option String := none
  scope_glob : Option String := none
  scope_glob_exclude : List String := []
  forbidden_imports : List String := []
  allowed_imports : List String := []
  forbidden_pattern : String := ""
  rule : String := ""
  package : String := ""
  allowed_in : List String := []
deriving DecidableEq, Repr

/-- Python truthiness of `a or b` over optional strings: an absent value and
the empty string are both falsy. -/
def orFalsy (a b : Option String) : Option String :=
  match a with
  | some s =>
    if s ≠ "" then some s
    else
      match b with
      | some t => if t ≠ "" then some t else none
      | none => none
  | none =>
    match b with
    | some t => if t ≠ "" then some t else none
    | none => none

/-- Embeds core.py `file_in_scope`: `source_glob` preferred over
`scope_glob`; no glob means every file is in scope; otherwise the file must
match the glob and match none of the exclusion globs. -/
def file_in_scope (rel_path : String) (inv : Invariant) : Bool :=
  match orFalsy inv.source_glob inv.scope_glob with
  | none => true
  | some g =>
    if ¬ path_matches rel_path g then false
    else ¬ inv.scope_glob_exclude.any (fun ex => path_matches rel_path ex)

/-- The three match forms core.py tries for one pattern: glob match of
the import, literal string equality, and glob match of the dotted-name
path conversion. -/
def matches3 (imp import_as_path pat : String) : Bool :=
  path_matches imp pat || imp == pat || path_matches import_as_path pat

/-- Dotted-name conversion in core.py `import_is_forbidden`: a name with a
`.` and no `/` has every `.` replaced by `/` for matching. -/
def importAsPath (imp : String) : String :=
  if '.' ∈ imp.data ∧ '/' ∉ imp.data then
    String.mk (imp.data.map (fun c => if c = '.' then '/' else c))
  else imp

/-- Embeds core.py `import_is_forbidden`: the import is forbidden when it
matches some `forbidden_imports` pattern under `matches3` and matches no
`allowed_imports` pattern under `matches3` (an allowed match overrides). -/
def import_is_forbidden (imp : String) (inv : Invariant) : Bool :=
  if inv.forbidden_imports.isEmpty then false
  else
    let iap := importAsPath imp
    if inv.forbidden_imports.any (fun p => matches3 imp iap p) then
      ! inv.allowed_imports.any (fun p => matches3 imp iap p)
    else false

/-- Exception-aware variant of `file_in_scope` (glob matching may raise). -/
def file_in_scope_opt (rel_path : String) (inv : Invariant) : Option Bool :=
  match orFalsy inv.source_glob inv.scope_glob with
  | none => some true
  | some g =>
    match path_matches_opt rel_path g with
    | none => none
    | some false => some false
    | some true =>
      match anyOpt (fun ex => path_matches_opt rel_path ex)
          inv.scope_glob_exclude with
      | none => none
      | some b => some (! b)

/-- Exception-aware variant of `matches3` in Python evaluation order. -/
def matches3_opt (imp import_as_path pat : String) : Option Bool :=
  optOr (path_matches_opt imp pat) (fun _ =>
    optOr (some (imp == pat)) (fun _ => path_matches_opt import_as_path pat))

/-- Exception-aware variant of `import_is_forbidden`. -/
def import_is_forbidden_opt (imp : String) (inv : Invariant) : Option Bool :=
  if inv.forbidden_imports.isEmpty then some false
  else
    let iap := importAsPath imp
    match anyOpt (fun p => matches3_opt imp iap p) inv.forbidden_imports with
    | none => none
    | some false => some false
    | some true =>
      match anyOpt (fun p => matches3_opt imp iap p) inv.allowed_imports with
      | none => none
      | some b => some (! b)

/-- JSON-valued field: the embedding distinguishes a string-valued field
from an integer-valued one, as the output JSON does. -/
inductive JVal where
  | str (s : String)
  | int (n : Int)
deriving DecidableEq, Repr

/-- Embeds the violation record emitted by rules.py
`eval_rule_for_file`. -/
structure Violation where
  rule : String
  severity : String
  message : String
  file : String
  imp : Option String := none
  line : Option JVal := none
  package : Option String := none
deriving DecidableEq, Repr

/-- Embeds the POSIX-class translation in the pattern branch of rules.py
`eval_rule_for_file`: the eight bracket-expression shorthands are replaced
by Python-native classes, in the source's order. -/
def translate_posix (p : List Char) : List Char :=
  let s1 := replaceStr "[[:space:]]".data "\\s".data p
  let s2 := replaceStr "[[:alpha:]]".data "[a-zA-Z]".data s1
  let s3 := replaceStr "[[:digit:]]".data "\\d".data s2
  let s4 := replaceStr "[[:alnum:]]".data "[a-zA-Z0-9]".data s3
  let s5 := replaceStr "[[:upper:]]".data "[A-Z]".data s4
  let s6 := replaceStr "[[:lower:]]".data "[a-z]".data s5
  let s7 := replaceStr "[[:punct:]]".data "[^\\w\\s]".data s6
  replaceStr "[[:blank:]]".data "[ \t]".data s7

/-- The violation record of the boundary branch of `eval_rule_for_file`. -/
def mkBoundaryViolation (inv : Invariant) (rel_path imp : String) :
    Violation :=
  { rule := inv.id, severity := inv.severity, message := inv.description,
    file := rel_path, imp := some imp }

/-- The violation record of the pattern branch of `eval_rule_for_file`;
the line field holds the DECIMAL TEXT of the 1-based line number, as
`str(line_num)` does. -/
def mkPatternViolation (inv : Invariant) (rel_path : String)
    (line_num : Nat) : Violation :=
  { rule := inv.id, severity := inv.severity, message := inv.description,
    file := rel_path, line := some (.str (toString line_num)) }

/-- Embeds rules.py `eval_rule_for_file` for the boundary and pattern rule
types.  The file system is abstracted: `imports` is the extracted import
list for the file, `lines` its text lines, and `recompile` models Python
`re.compile` on the translated pattern, returning a line matcher
(`re.search` on one line) or `none` for an invalid pattern (`re.error`).
The convention and dependency branches operate on the file system
(colocated-test lookup) and other inputs and are outside the claims; they
are elided and yield `[]` here. -/
def eval_rule_for_file (inv : Invariant) (rel_path : String)
    (imports : List String) (recompile : String → Option (String → Bool))
    (lines : List String) : List Violation :=
  if ¬ file_in_scope rel_path inv then []
  else if inv.type == "boundary" then
    if imports.isEmpty then []
    else
      (imports.filter (fun imp => imp ≠ "" && import_is_forbidden imp inv)).map
        (mkBoundaryViolation inv rel_path)
  else if inv.type == "pattern" then
    if inv.forbidden_pattern == "" then []
    else
      match recompile (String.mk (translate_posix inv.forbidden_pattern.data)) with
      | none => []
      | some m =>
        match lines.findIdx? m with
        | none => []
        | some i => [mkPatternViolation inv rel_path (i + 1)]
  else []

/-! ## Module ids (scripts/build-adjacency.py) -/

/-- Index of the last occurrence of a character, mirroring Python
`str.rfind` (which returns -1, modelled `none`, for no occurrence). -/
def rfindIdx (c : Char) (l : List Char) : Option Nat :=
  (List.range l.length).foldl
    (fun acc i => if l.getD i ' ' = c then some i else acc) none

/-- Splitting on a separator character, with Python `str.split(sep)`
semantics: the result is never empty and empty segments are kept. -/
def splitOnChar (sep : Char) : List Char → List (List Char)
  | [] => [[]]
  | c :: rest =>
    match splitOnChar sep rest with
    | [] => [[c]]
    | h :: t => if c = sep then [] :: h :: t else (c :: h) :: t

/-- Slash-separated segments of a string. -/
def slashSegs (s : String) : List String :=
  (splitOnChar '/' s.data).map String.mk

/-- Extension stripping used for single-component paths: cut at the last
dot if its index is positive, as `file_to_module` does with `rfind`. -/
def stemOf (name : String) : String :=
  match rfindIdx '.' name.data with
  | some i => if 0 < i then String.mk (name.data.take i) else name
  | none => name

/-- Embeds build-adjacency.py `file_to_module`: backslashes are turned into
slashes, then the module id is the first two slash components when there
are at least three, the first alone when there are exactly two, otherwise
the extension-stripped file name. -/
def file_to_module (filepath : String) : String :=
  let parts := slashSegs
    (String.mk (filepath.data.map (fun c => if c = '\\' then '/' else c)))
  if 3 ≤ parts.length then parts.getD 0 "" ++ "/" ++ parts.getD 1 ""
  else if parts.length = 2 then parts.getD 0 ""
  else stemOf (parts.getD 0 "")

/-- Statement of the spec's module-id rule, written over the path's own
slash-separated segments (the spec does not mention backslashes). -/
def spec_module_id (p : String) : String :=
  let segs := slashSegs p
  if 3 ≤ segs.length then segs.getD 0 "" ++ "/" ++ segs.getD 1 ""
  else if segs.length = 2 then segs.getD 0 ""
  else stemOf (segs.getD 0 "")

/-! ## Import extraction (scripts/extract-imports.py) -/

/-- States of the JS/TS comment-stripping state machine in
extract-imports.py (`_CODE` through `_REGEX_LITERAL`). -/
inductive JsState where
  | code
  | lineC
  | blockC
  | sstr
  | dstr
  | tstr
  | regexSt
deriving DecidableEq, Repr

/-- Embeds `_is_prev_token_value`: looking left across spaces and tabs, does
the previous character end an expression (so a following `/` is division
rather than a regex literal)?  `prev` holds the already-scanned characters
in reverse order. -/
def isPrevTokenValue (prev : List Char) : Bool :=
  match prev.dropWhile (fun c => c = ' ' || c = '\t') with
  | [] => false
  | c :: _ =>
    c.isAlphanum || c = ')' || c = ']' || c = '}' || c = '.' ||
      c = '_' || c = '$'

theorem length_dropWhile_le (p : Char → Bool) (l : List Char) :
    (l.dropWhile p).length ≤ l.length :=
  (List.dropWhile_sublist p).length_le

/-- Embeds the scanning loop of `_strip_comments` (extract-imports.py, JS /
TS).  The Python loop walks an index `i` over `source`, overwriting
positions of `out` (a copy of the source) with spaces; here the consumed
prefix is emitted directly, `prev` carries the original scanned characters
in reverse (for `_is_prev_token_value`), and the remaining input is
`rest`. -/
def jsStripGo (st : JsState) (stk : List JsState) (depth : Nat)
    (prev rest : List Char) : List Char :=
  match st, rest with
  | _, [] => []
  | .code, '/' :: '/' :: r2 =>
    ' ' :: ' ' :: jsStripGo .lineC stk depth ('/' :: '/' :: prev) r2
  | .code, '/' :: '*' :: r2 =>
    ' ' :: ' ' :: jsStripGo .blockC stk depth ('*' :: '/' :: prev) r2
  | .code, '/' :: n :: r2 =>
    if ¬ isPrevTokenValue prev then
      '/' :: jsStripGo .regexSt stk depth ('/' :: prev) (n :: r2)
    else '/' :: jsStripGo .code stk depth ('/' :: prev) (n :: r2)
  | .code, c :: rest' =>
    if c = '\'' then c :: jsStripGo .sstr stk depth (c :: prev) rest'
    else if c = '"' then c :: jsStripGo .dstr stk depth (c :: prev) rest'
    else if c = '\x60' then
      ' ' :: jsStripGo .tstr (.code :: stk) depth (c :: prev) rest'
    else if c = '}' ∧ stk ≠ [] then
      if depth ≤ 1 then
        c :: jsStripGo (stk.headD .code) stk.tail 0 (c :: prev) rest'
      else c :: jsStripGo .code stk (depth - 1) (c :: prev) rest'
    else if c = '{' ∧ stk ≠ [] then
      c :: jsStripGo .code stk (depth + 1) (c :: prev) rest'
    else c :: jsStripGo .code stk depth (c :: prev) rest'
  | .lineC, '\n' :: rest' =>
    '\n' :: jsStripGo .code stk depth ('\n' :: prev) rest'
  | .lineC, c :: rest' =>
    ' ' :: jsStripGo .lineC stk depth (c :: prev) rest'
  | .blockC, '*' :: '/' :: r2 =>
    ' ' :: ' ' :: jsStripGo .code stk depth ('/' :: '*' :: prev) r2
  | .blockC, '\n' :: rest' =>
    '\n' :: jsStripGo .blockC stk depth ('\n' :: prev) rest'
  | .blockC, c :: rest' =>
    ' ' :: jsStripGo .blockC stk depth (c :: prev) rest'
  | .sstr, '\\' :: d :: r2 =>
    '\\' :: d :: jsStripGo .sstr stk depth (d :: '\\' :: prev) r2
  | .sstr, '\'' :: rest' =>
    '\'' :: jsStripGo .code stk depth ('\'' :: prev) rest'
  | .sstr, '\n' :: rest' =>
    '\n' :: jsStripGo .code stk depth ('\n' :: prev) rest'
  | .sstr, c :: rest' =>
    c :: jsStripGo .sstr stk depth (c :: prev) rest'
  | .dstr, '\\' :: d :: r2 =>
    '\\' :: d :: jsStripGo .dstr stk depth (d :: '\\' :: prev) r2
  | .dstr, '"' :: rest' =>
    '"' :: jsStripGo .code stk depth ('"' :: prev) rest'
  | .dstr, '\n' :: rest' =>
    '\n' :: jsStripGo .code stk depth ('\n' :: prev) rest'
  | .dstr, c :: rest' =>
    c :: jsStripGo .dstr stk depth (c :: prev) rest'
  | .tstr, '\\' :: d :: r2 =>
    ' ' :: ' ' :: jsStripGo .tstr stk depth (d :: '\\' :: prev) r2
  | .tstr, '\x60' :: rest' =>
    ' ' :: jsStripGo (stk.headD .code) stk.tail depth ('\x60' :: prev) rest'
  | .tstr, '$' :: '{' :: r2 =>
    ' ' :: ' ' :: jsStripGo .code (.tstr :: stk) 1 ('{' :: '$' :: prev) r2
  | .tstr, '\n' :: rest' =>
    '\n' :: jsStripGo .tstr stk depth ('\n' :: prev) rest'
  | .tstr, c :: rest' =>
    ' ' :: jsStripGo .tstr stk depth (c :: prev) rest'
  | .regexSt, '\\' :: d :: r2 =>
    '\\' :: d :: jsStripGo .regexSt stk depth (d :: '\\' :: prev) r2
  | .regexSt, '/' :: rest' =>
    '/' :: rest'.takeWhile Char.isAlpha ++
      jsStripGo .code stk depth
        ((rest'.takeWhile Char.isAlpha).reverse ++ '/' :: prev)
        (rest'.dropWhile Char.isAlpha)
  | .regexSt, '\n' :: rest' =>
    '\n' :: jsStripGo .code stk depth ('\n' :: prev) rest'
  | .regexSt, c :: rest' =>
    c :: jsStripGo .regexSt stk depth (c :: prev) rest'
termination_by rest.length
decreasing_by
  all_goals simp only [List.length_cons]
  all_goals first
    | omega
    | exact Nat.lt_succ_of_le (length_dropWhile_le _ _)

/-- Embeds `_strip_comments`: the stripper starts in code state with an
empty template stack, zero brace depth and nothing scanned. -/
def strip_comments (source : List Char) : List Char :=
  jsStripGo .code [] 0 [] source

/-- Pointwise shape relation: the output has the same length as the input
and each output character is the input character or a blank. -/
def shadows : List Char → List Char → Prop
  | [], [] => True
  | o :: os, c :: cs => (o = c ∨ o = ' ') ∧ shadows os cs
  | _, _ => False

theorem shadows_refl : ∀ l : List Char, shadows l l := by
  intro l
  induction l with
  | nil => trivial
  | cons c cs ih => exact ⟨Or.inl rfl, ih⟩

theorem shadows_append_left :
    ∀ (a : List Char) {t t' : List Char}, shadows t t' →
      shadows (a ++ t) (a ++ t') := by
  intro a
  induction a with
  | nil => intro t t' h; exact h
  | cons c cs ih => intro t t' h; exact ⟨Or.inl rfl, ih h⟩

theorem shadows_length : ∀ {o c : List Char}, shadows o c →
    o.length = c.length := by
  intro o
  induction o with
  | nil =>
    intro c h
    cases c
    · rfl
    · exact absurd h (by simp [shadows])
  | cons x xs ih =>
    intro c h
    cases c with
    | nil => exact absurd h (by simp [shadows])
    | cons y ys => simpa using ih h.2

set_option maxHeartbeats 2000000 in
theorem jsStripGo_shadows :
    ∀ st stk depth prev rest, shadows (jsStripGo st stk depth prev rest) rest := by
  intro st stk depth prev rest
  induction st, stk, depth, prev, rest using jsStripGo.induct
  all_goals try (simp_all [jsStripGo, shadows])
  -- brace-depth decrement inside a template expression
  next stk depth prev c rest' hc hd ih =>
    rw [if_neg (by omega)]
    exact ⟨Or.inl rfl, ih⟩
  -- plain code character (none of the special characters apply)
  next stk depth prev c rest' hx hq1 hq2 hbt hb1 hb2 ih =>
    rw [if_neg (fun hy => hy.2 (hb1 hy.1)), if_neg (fun hy => hy.2 (hb2 hy.1))]
    exact ⟨Or.inl rfl, ih⟩
  -- closing slash of a regex literal followed by its flags
  next stk depth prev rest' ih =>
    have hsh := shadows_append_left (rest'.takeWhile Char.isAlpha) ih
    rwa [List.takeWhile_append_dropWhile] at hsh

theorem shadows_getD : ∀ {o c : List Char}, shadows o c →
    ∀ i, o.getD i ' ' = c.getD i ' ' ∨ o.getD i ' ' = ' ' := by
  intro o
  induction o with
  | nil => intro c h i; right; simp
  | cons x xs ih =>
    intro c h i
    cases c with
    | nil => exact absurd h (by simp [shadows])
    | cons y ys =>
      cases i with
      | zero => simpa using h.1
      | succ j => simpa using ih h.2 j

/-- Embeds the double-quoted-string scan inside `_strip_java_comments`:
consumes up to and including the closing quote, emitting every scanned
character (backslash pairs included); returns the emitted characters and
the remaining input. -/
def jStrPair : List Char → List Char × List Char
  | [] => ([], [])
  | '"' :: rest => (['"'], rest)
  | '\\' :: [] => (['\\'], [])
  | '\\' :: d :: rest =>
    let p := jStrPair rest
    ('\\' :: d :: p.1, p.2)
  | c :: rest =>
    let p := jStrPair rest
    (c :: p.1, p.2)

/-- Embeds the character-literal scan inside `_strip_java_comments`. -/
def jChrPair : List Char → List Char × List Char
  | [] => ([], [])
  | '\'' :: rest => (['\''], rest)
  | '\\' :: [] => (['\\'], [])
  | '\\' :: d :: rest =>
    let p := jChrPair rest
    ('\\' :: d :: p.1, p.2)
  | c :: rest =>
    let p := jChrPair rest
    (c :: p.1, p.2)

/-- Embeds the block-comment skip inside `_strip_java_comments`: the input
after the opening has its characters dropped up to and past the closing,
or entirely (including a trailing character, as the `i += 2` overshoot
does) when the comment is unterminated. -/
def jBlockRest : List Char → List Char
  | '*' :: '/' :: rest => rest
  | [] => []
  | [_] => []
  | _ :: rest => jBlockRest rest

theorem jStrPair_append : ∀ l : List Char, (jStrPair l).1 ++ (jStrPair l).2 = l := by
  intro l
  induction l using jStrPair.induct with
  | case1 => rfl
  | case2 rest => rfl
  | case3 => rfl
  | case4 d rest ih => simp [jStrPair, ih]
  | case5 c rest h1 h2 h3 ih =>
    have hred : jStrPair (c :: rest) =
        (c :: (jStrPair rest).1, (jStrPair rest).2) := by
      rw [jStrPair.eq_def]
      split
      all_goals simp_all
    rw [hred]
    simp [ih]

theorem jChrPair_append : ∀ l : List Char, (jChrPair l).1 ++ (jChrPair l).2 = l := by
  intro l
  induction l using jChrPair.induct with
  | case1 => rfl
  | case2 rest => rfl
  | case3 => rfl
  | case4 d rest ih => simp [jChrPair, ih]
  | case5 c rest h1 h2 h3 ih =>
    have hred : jChrPair (c :: rest) =
        (c :: (jChrPair rest).1, (jChrPair rest).2) := by
      rw [jChrPair.eq_def]
      split
      all_goals simp_all
    rw [hred]
    simp [ih]

theorem jStrPair_rest_length (l : List Char) :
    (jStrPair l).2.length ≤ l.length := by
  conv_rhs => rw [← jStrPair_append l]
  simp

theorem jChrPair_rest_length (l : List Char) :
    (jChrPair l).2.length ≤ l.length := by
  conv_rhs => rw [← jChrPair_append l]
  simp

theorem jBlockRest_sublist : ∀ l : List Char, List.Sublist (jBlockRest l) l := by
  intro l
  induction l using jBlockRest.induct with
  | case1 rest => exact (List.sublist_cons_self _ _).trans (List.sublist_cons_self _ _)
  | case2 => simp [jBlockRest]
  | case3 c => simp [jBlockRest]
  | case4 c rest h1 h2 ih =>
    have hred : jBlockRest (c :: rest) = jBlockRest rest := by
      rw [jBlockRest.eq_def]
      split
      all_goals simp_all
    rw [hred]
    exact ih.trans (List.sublist_cons_self _ _)

/-- Embeds `_strip_java_comments` (extract-imports.py): string and
character literals are copied through verbatim, line comments are dropped
up to the newline, block comments are dropped past the closing `*/`, and
every other character is copied. -/
def strip_java_comments : List Char → List Char
  | [] => []
  | '"' :: rest =>
    '"' :: (jStrPair rest).1 ++ strip_java_comments (jStrPair rest).2
  | '\'' :: rest =>
    '\'' :: (jChrPair rest).1 ++ strip_java_comments (jChrPair rest).2
  | '/' :: '/' :: rest =>
    strip_java_comments (rest.dropWhile (fun c => c ≠ '\n'))
  | '/' :: '*' :: rest => strip_java_comments (jBlockRest rest)
  | c :: rest => c :: strip_java_comments rest
termination_by l => l.length
decreasing_by
  · have := jStrPair_rest_length rest
    simp only [List.length_cons]
    omega
  · have := jChrPair_rest_length rest
    simp only [List.length_cons]
    omega
  · have := length_dropWhile_le (fun c => c ≠ '\n') rest
    simp only [List.length_cons]
    omega
  · have := (jBlockRest_sublist rest).length_le
    simp only [List.length_cons]
    omega
  · simp only [List.length_cons]
    omega

theorem strip_java_comments_sublist :
    ∀ l : List Char, List.Sublist (strip_java_comments l) l := by
  intro l
  induction l using strip_java_comments.induct with
  | case1 => simp [strip_java_comments]
  | case2 rest ih =>
    rw [show strip_java_comments ('"' :: rest) =
      '"' :: (jStrPair rest).1 ++ strip_java_comments (jStrPair rest).2 from by
        rw [strip_java_comments]]
    rw [show ('"' :: rest) = '"' :: ((jStrPair rest).1 ++ (jStrPair rest).2)
      from by rw [jStrPair_append]]
    exact ((ih.append_left _).cons₂ _)
  | case3 rest ih =>
    rw [show strip_java_comments ('\'' :: rest) =
      '\'' :: (jChrPair rest).1 ++ strip_java_comments (jChrPair rest).2 from by
        rw [strip_java_comments]]
    rw [show ('\'' :: rest) = '\'' :: ((jChrPair rest).1 ++ (jChrPair rest).2)
      from by rw [jChrPair_append]]
    exact ((ih.append_left _).cons₂ _)
  | case4 rest ih =>
    rw [show strip_java_comments ('/' :: '/' :: rest) =
      strip_java_comments (rest.dropWhile (fun c => c ≠ '\n')) from by
        rw [strip_java_comments]]
    exact ((ih.trans (List.dropWhile_sublist _)).cons _).cons _
  | case5 rest ih =>
    rw [show strip_java_comments ('/' :: '*' :: rest) =
      strip_java_comments (jBlockRest rest) from by rw [strip_java_comments]]
    exact ((ih.trans (jBlockRest_sublist rest)).cons _).cons _
  | case6 c rest h1 h2 h3 h4 ih =>
    have hred : strip_java_comments (c :: rest) =
        c :: strip_java_comments rest := by
      rw [strip_java_comments.eq_def]
      split
      all_goals simp_all
    rw [hred]
    exact ih.cons₂ _

/-! Import extraction dispatch (extract-imports.py `extract_imports`,
`_EXT_MAP`, `extract_python_imports`). -/

/-- The per-language extractors in the dispatch table. -/
inductive Extractor where
  | jsTs
  | python
  | goLang
  | rust
  | java
  | dart
  | kotlin
  | swift
  | csharp
  | php
  | ruby
deriving DecidableEq, Repr

/-- Embeds `_EXT_MAP`: lower-cased extension to extractor. -/
def EXT_MAP : List (String × Extractor) :=
  [(".ts", .jsTs), (".tsx", .jsTs), (".js", .jsTs), (".jsx", .jsTs),
   (".mjs", .jsTs), (".cjs", .jsTs), (".py", .python), (".go", .goLang),
   (".rs", .rust), (".java", .java), (".dart", .dart), (".kt", .kotlin),
   (".kts", .kotlin), (".swift", .swift), (".cs", .csharp),
   (".php", .php), (".rb", .ruby)]

/-- Embeds the extension part of `os.path.splitext`: the suffix from the
last dot of the basename, provided some earlier character of the basename
is not a dot (so dotfiles have no extension). -/
def splitextExt (p : String) : String :=
  let l := p.data
  let fileIdx : Nat :=
    match rfindIdx '/' l with
    | some i => i + 1
    | none => 0
  match rfindIdx '.' l with
  | none => ""
  | some sepIdx =>
    if fileIdx < sepIdx &&
        ((List.range sepIdx).filter (fun j => fileIdx ≤ j)).any
          (fun j => l.getD j ' ' ≠ '.') then
      String.mk (l.drop sepIdx)
    else ""

/-- Nodes relevant to `extract_python_imports` in the `ast.walk` order:
plain imports carry their alias names, from-imports carry the optional
module, and every other node kind is ignored. -/
inductive PyNode where
  | imp (names : List String)
  | impFrom (module : Option String)
  | other
deriving DecidableEq, Repr

/-- Embeds `extract_python_imports`: `none` content models an unreadable
file (the `except (IOError, OSError)` path), a `none` parse models a
`SyntaxError` from `ast.parse`; both yield the empty list.  On success the
walk collects module names in first-appearance order without
duplicates, skipping empty names. -/
def extract_python_imports (parse : String → Option (List PyNode))
    (content : Option String) : List String :=
  match content with
  | none => []
  | some src =>
    match parse src with
    | none => []
    | some nodes =>
      nodes.foldl
        (fun acc n =>
          match n with
          | .imp names =>
            names.foldl
              (fun acc nm =>
                if nm ≠ "" ∧ nm ∉ acc then acc ++ [nm] else acc) acc
          | .impFrom (some m) =>
            if m ≠ "" ∧ m ∉ acc then acc ++ [m] else acc
          | .impFrom none => acc
          | .other => acc) []

/-- Embeds `extract_imports`: dispatch on the lower-cased extension; an
extension absent from `_EXT_MAP` yields `[]`.  Every per-language extractor
in extract-imports.py opens its file under `try/except (IOError, OSError)`
returning `[]` on failure (`none` content) and otherwise runs its
language-specific phase over the text; those phases are abstracted by the
`bodies` parameter, except the Python extractor, whose structured-parser
behaviour the claims name, which is embedded concretely. -/
def extract_imports (bodies : Extractor → String → List String)
    (pyParse : String → Option (List PyNode))
    (filepath : String) (content : Option String) : List String :=
  let ext := String.mk ((splitextExt filepath).data.map Char.toLower)
  match EXT_MAP.find? (fun kv => kv.1 == ext) with
  | none => []
  | some (_, .python) => extract_python_imports pyParse content
  | some (_, e) =>
    match content with
    | none => []
    | some src => bodies e src

/-! ## Module adjacency graph (scripts/build-adjacency.py) -/

/-- Association-list lookup, the shape of a Python dict read. -/
def alookup [DecidableEq κ] (m : List (κ × ν)) (k : κ) : Option ν :=
  (m.find? (fun kv => decide (kv.1 = k))).map (·.2)

/-- Association-list upsert with Python dict insertion-order semantics:
an existing key is updated in place, a new key is appended, starting from
`dflt`. -/
def aupdate [DecidableEq κ] (m : List (κ × ν)) (k : κ) (dflt : ν)
    (f : ν → ν) : List (κ × ν) :=
  match m with
  | [] => [(k, f dflt)]
  | (k', v) :: rest =>
    if k' = k then (k', f v) :: rest else (k', v) :: aupdate rest k dflt f

/-- Duplicate-free append, the effect of `set.add` on a list model of a
Python set. -/
def saddList [DecidableEq α] (l : List α) (x : α) : List α :=
  if x ∈ l then l else l ++ [x]

/-- First-occurrence deduplication, the key order of a Python dict built by
repeated insertion. -/
def insertOrder [DecidableEq α] (l : List α) : List α :=
  l.foldl (fun acc x => if x ∈ acc then acc else acc ++ [x]) []

theorem foldl_insert_mem [DecidableEq α] :
    ∀ (l acc : List α) (x : α),
      (x ∈ l.foldl (fun acc y => if y ∈ acc then acc else acc ++ [y]) acc ↔
        x ∈ acc ∨ x ∈ l) := by
  intro l
  induction l with
  | nil => simp
  | cons y l ih =>
    intro acc x
    simp only [List.foldl_cons]
    rw [ih]
    by_cases hy : y ∈ acc
    · simp only [if_pos hy, List.mem_cons]
      constructor
      · rintro (h | h)
        · exact Or.inl h
        · exact Or.inr (Or.inr h)
      · rintro (h | h | h)
        · exact Or.inl h
        · exact Or.inl (h ▸ hy)
        · exact Or.inr h
    · simp only [if_neg hy, List.mem_append, List.mem_singleton,
        List.mem_cons]
      tauto

theorem mem_insertOrder [DecidableEq α] (l : List α) (x : α) :
    x ∈ insertOrder l ↔ x ∈ l := by
  unfold insertOrder
  rw [foldl_insert_mem]
  simp

/-- Directory part of a path (text before the last slash), mirroring
`os.path.dirname` for the slash-separated relative paths in play. -/
def dirnameOf (p : String) : String :=
  match rfindIdx '/' p.data with
  | some i => String.mk (p.data.take i)
  | none => ""

/-- Joining path components with slashes (`"/".join`). -/
def joinSlash : List String → String
  | [] => ""
  | [x] => x
  | x :: xs => x ++ "/" ++ joinSlash xs

/-- Embeds `os.path.normpath` for relative slash-separated paths: drops
empty and `.` components and cancels `..` against a preceding component. -/
def normpath (p : String) : String :=
  if p = "" then "."
  else
    let isAbs := p.data.head? = some '/'
    let comps := (slashSegs p).filter (fun c => c ≠ "" ∧ c ≠ ".")
    let newComps := comps.foldl
      (fun acc comp =>
        if comp ≠ ".." ∨ (¬ isAbs ∧ acc = []) ∨ acc.getLast? = some ".." then
          acc ++ [comp]
        else if acc ≠ [] then acc.dropLast
        else acc) []
    let joined := joinSlash newComps
    let pre := if isAbs then "/" ++ joined else joined
    if pre = "" then "." else pre

/-- Embeds build-adjacency.py `resolve_import`: a specifier starting with
`.` is joined to the source file's directory and normalized (with
backslashes turned into slashes); any other specifier is returned
as-is. -/
def resolve_import (source_file imp : String) : String :=
  if imp.data.head? = some '.' then
    let d := dirnameOf source_file
    let joined := if d = "" then imp else d ++ "/" ++ imp
    let resolved := normpath joined
    String.mk (resolved.data.map (fun c => if c = '\\' then '/' else c))
  else imp

/-- One element of the stdin payload of build-adjacency.py. -/
structure ImportEntry where
  file : String
  imports : List String
deriving DecidableEq, Repr

/-- One import detail carried on an edge (source file and raw
specifier). -/
structure EdgeImport where
  source : String
  target : String
deriving DecidableEq, Repr

/-- The violation index produced by `load_violations`: the exact
(source file, resolved import) pair maps to the rule ids (duplicate-free,
in first appearance order) that flagged that import. -/
abbrev ViolationMap := List ((String × String) × List String)

/-- Mutable state of the `build_adjacency` entry loop: files per module,
the import details per edge and rule-id sets per edge, each a dict in
insertion order. -/
structure BAState where
  module_files : List (String × List String)
  edge_imports : List ((String × String) × List EdgeImport)
  edge_violations : List ((String × String) × List String)
deriving Repr

/-- Embeds the inner (per import) body of the `build_adjacency` loop. -/
def processImport (vmap : ViolationMap) (source_file source_module : String)
    (st : BAState) (imp : String) : BAState :=
  if imp = "" then st
  else
    let resolved := resolve_import source_file imp
    let target_module := file_to_module resolved
    if target_module = source_module then st
    else
      let st1 : BAState :=
        { st with module_files := aupdate st.module_files target_module [] id }
      let edge_key := (source_module, target_module)
      let st2 : BAState :=
        { st1 with
            edge_imports := aupdate st1.edge_imports edge_key []
              (fun l => l ++ [⟨source_file, imp⟩]) }
      match alookup vmap (source_file, resolved) with
      | none => st2
      | some rules =>
        { st2 with
            edge_violations := aupdate st2.edge_violations edge_key []
              (fun l => rules.foldl saddList l) }

/-- Embeds the outer (per entry) body of the `build_adjacency` loop. -/
def processEntry (vmap : ViolationMap) (st : BAState) (entry : ImportEntry) :
    BAState :=
  if entry.file = "" then st
  else
    let source_module := file_to_module entry.file
    let st1 : BAState :=
      { st with
          module_files := aupdate st.module_files source_module []
            (fun l => saddList l entry.file) }
    entry.imports.foldl (processImport vmap entry.file source_module) st1

/-- Embeds the per-module violation counting loop of `build_adjacency`:
each violation-index entry adds its rule-id count to the module of its
source file. -/
def mvcFold (vmap : ViolationMap) : List (String × Nat) :=
  vmap.foldl
    (fun acc kv =>
      aupdate acc (file_to_module kv.1.1) 0 (fun n => n + kv.2.length)) []

/-- Output module record of build-adjacency.py. -/
structure AdjModule where
  id : String
  files : List String
  file_count : Nat
  violations : Nat
deriving DecidableEq, Repr

/-- Output edge record of build-adjacency.py (`from` and `to` are Lean
keywords and appear as `fromMod` and `toMod`). -/
structure AdjEdge where
  fromMod : String
  toMod : String
  imports : List EdgeImport
  violation : Bool
  rule_ids : List String
deriving DecidableEq, Repr

structure Adjacency where
  modules : List AdjModule
  edges : List AdjEdge
deriving DecidableEq, Repr

/-- String order used for the sorted outputs (Python `sorted` is any
stable sort; a structurally recursive insertion sort is used so that
concrete instances evaluate). -/
def strLtB : List Char → List Char → Bool
  | [], [] => false
  | [], _ :: _ => true
  | _ :: _, [] => false
  | c :: as, d :: bs =>
    if c.toNat < d.toNat then true
    else if d.toNat < c.toNat then false
    else strLtB as bs

def strLe (a b : String) : Prop := strLtB b.data a.data = false

instance : DecidableRel strLe := fun a b => by
  unfold strLe; infer_instance

/-- Pair order used for the sorted edge keys, mirroring Python tuple
comparison. -/
def keyLe (a b : String × String) : Prop :=
  strLtB a.1.data b.1.data = true ∨ (a.1 = b.1 ∧ strLe a.2 b.2)

instance : DecidableRel keyLe := fun a b => by
  unfold keyLe; infer_instance

/-- Embeds build-adjacency.py `build_adjacency`: folds the entry loop, then
renders modules sorted by id (files sorted, `violations` from the counting
loop) and edges sorted by key (rule ids sorted, `violation` true iff some
rule id is present). -/
def build_adjacency (entries : List ImportEntry) (vmap : ViolationMap) :
    Adjacency :=
  let st := entries.foldl (processEntry vmap) ⟨[], [], []⟩
  let modules := (List.insertionSort strLe (st.module_files.map (·.1))).map
    (fun mid =>
      let files :=
        List.insertionSort strLe ((alookup st.module_files mid).getD [])
      ({ id := mid, files := files, file_count := files.length,
         violations := (alookup (mvcFold vmap) mid).getD 0 } : AdjModule))
  let edges := (List.insertionSort keyLe (st.edge_imports.map (·.1))).map
    (fun k =>
      let rule_ids :=
        List.insertionSort strLe ((alookup st.edge_violations k).getD [])
      ({ fromMod := k.1, toMod := k.2,
         imports := (alookup st.edge_imports k).getD [],
         violation := decide (0 < rule_ids.length),
         rule_ids := rule_ids } : AdjEdge))
  ⟨modules, edges⟩

/-! ### Order lemmas -/

theorem strLtB_antisymm_eq : ∀ a b : List Char,
    strLtB a b = false → strLtB b a = false → a = b := by
  intro a
  induction a with
  | nil => intro b; cases b <;> simp [strLtB]
  | cons c as ih =>
    intro b
    cases b with
    | nil => simp [strLtB]
    | cons d bs =>
      simp only [strLtB]
      by_cases h1 : c.toNat < d.toNat
      · simp [h1]
      · by_cases h2 : d.toNat < c.toNat
        · simp [h1, h2]
        · simp only [if_neg h1, if_neg h2]
          intro ha hb
          have h5 : c.toNat = d.toNat := by omega
          have hcd : c = d := Char.eq_of_val_eq (UInt32.toNat.inj h5)
          rw [hcd, ih bs ha hb]

theorem strLtB_le_trans : ∀ a b c : List Char,
    strLtB b a = false → strLtB c b = false → strLtB c a = false := by
  intro a
  induction a with
  | nil =>
    intro b c hb hc
    cases c <;> simp [strLtB]
  | cons x as ih =>
    intro b c hb hc
    cases b with
    | nil => simp [strLtB] at hb
    | cons y bs =>
      cases c with
      | nil => simp [strLtB] at hc
      | cons z cs =>
        simp only [strLtB] at hb hc ⊢
        by_cases h1 : y.toNat < x.toNat
        · simp [h1] at hb
        · by_cases h2 : z.toNat < y.toNat
          · simp [h2] at hc
          · simp only [if_neg h1] at hb
            simp only [if_neg h2] at hc
            by_cases h3 : z.toNat < x.toNat
            · exact absurd h3 (by omega)
            · simp only [if_neg h3]
              by_cases h4 : x.toNat < z.toNat
              · simp [h4]
              · simp only [if_neg h4]
                have hxy : ¬ x.toNat < y.toNat := by omega
                have hyz : ¬ y.toNat < z.toNat := by omega
                simp only [if_neg hxy] at hb
                simp only [if_neg hyz] at hc
                exact ih bs cs hb hc

theorem strLtB_lt_trans : ∀ a b c : List Char,
    strLtB a b = true → strLtB b c = true → strLtB a c = true := by
  intro a
  induction a with
  | nil =>
    intro b c hab hbc
    cases b with
    | nil => simp [strLtB] at hab
    | cons y bs =>
      cases c with
      | nil => simp [strLtB] at hbc
      | cons z cs => simp [strLtB]
  | cons x as ih =>
    intro b c hab hbc
    cases b with
    | nil => simp [strLtB] at hab
    | cons y bs =>
      cases c with
      | nil => simp [strLtB] at hbc
      | cons z cs =>
        simp only [strLtB] at hab hbc ⊢
        by_cases h1 : x.toNat < y.toNat
        · by_cases h2 : y.toNat < z.toNat
          · simp [show x.toNat < z.toNat by omega]
          · simp only [if_neg h2] at hbc
            by_cases h3 : z.toNat < y.toNat
            · simp [h3] at hbc
            · simp [show x.toNat < z.toNat by omega]
        · by_cases h0 : y.toNat < x.toNat
          · simp [h1, h0] at hab
          · simp only [if_neg h1, if_neg h0] at hab
            by_cases h2 : y.toNat < z.toNat
            · simp [show x.toNat < z.toNat by omega]
            · by_cases h3 : z.toNat < y.toNat
              · simp [h3] at hbc; omega
              · simp only [if_neg h2, if_neg h3] at hbc
                have hxz : ¬ x.toNat < z.toNat := by omega
                have hzx : ¬ z.toNat < x.toNat := by omega
                simp only [if_neg hxz, if_neg hzx]
                exact ih bs cs hab hbc

theorem strLtB_not_both : ∀ a b : List Char,
    strLtB a b = false ∨ strLtB b a = false := by
  intro a
  induction a with
  | nil => intro b; cases b <;> simp [strLtB]
  | cons x as ih =>
    intro b
    cases b with
    | nil => simp [strLtB]
    | cons y bs =>
      simp only [strLtB]
      by_cases h1 : x.toNat < y.toNat
      · right
        simp [show ¬ y.toNat < x.toNat by omega, h1]
      · by_cases h2 : y.toNat < x.toNat
        · left; simp [h1, h2]
        · simp only [if_neg h1, if_neg h2]
          exact ih bs

instance : IsTotal String strLe :=
  ⟨fun a b => strLtB_not_both b.data a.data⟩

instance : IsTrans String strLe :=
  ⟨fun a b c hab hbc => strLtB_le_trans a.data b.data c.data hab hbc⟩

theorem string_eq_of_data_eq {a b : String} (h : a.data = b.data) : a = b := by
  cases a
  cases b
  exact congrArg String.mk h

instance : IsTotal (String × String) keyLe := by
  constructor
  intro a b
  cases ha : strLtB a.1.data b.1.data with
  | true => exact Or.inl (Or.inl ha)
  | false =>
    cases hb : strLtB b.1.data a.1.data with
    | true => exact Or.inr (Or.inl hb)
    | false =>
      have heq : a.1 = b.1 := string_eq_of_data_eq (strLtB_antisymm_eq _ _ ha hb)
      rcases strLtB_not_both b.2.data a.2.data with h2 | h2
      · exact Or.inl (Or.inr ⟨heq, h2⟩)
      · exact Or.inr (Or.inr ⟨heq.symm, h2⟩)

instance : IsTrans (String × String) keyLe := by
  constructor
  rintro a b c (hab | ⟨hab1, hab2⟩) (hbc | ⟨hbc1, hbc2⟩)
  · exact Or.inl (strLtB_lt_trans _ _ _ hab hbc)
  · exact Or.inl (hbc1 ▸ hab)
  · exact Or.inl (hab1 ▸ hbc)
  · exact Or.inr ⟨hab1.trans hbc1, strLtB_le_trans _ _ _ hab2 hbc2⟩

/-! ### Association-list lemmas -/

theorem alookup_nil [DecidableEq κ] (k : κ) :
    alookup ([] : List (κ × ν)) k = none := by
  simp [alookup, List.find?]

theorem alookup_cons [DecidableEq κ] (a : κ) (v : ν) (rest : List (κ × ν))
    (k : κ) :
    alookup ((a, v) :: rest) k = if a = k then some v else alookup rest k := by
  by_cases h : a = k
  · subst h
    simp [alookup, List.find?]
  · simp [alookup, List.find?, h]

theorem alookup_aupdate_self [DecidableEq κ] :
    ∀ (m : List (κ × ν)) (k : κ) (d : ν) (f : ν → ν),
      alookup (aupdate m k d f) k = some (f ((alookup m k).getD d)) := by
  intro m
  induction m with
  | nil => intro k d f; simp [aupdate, alookup_cons, alookup_nil]
  | cons kv rest ih =>
    intro k d f
    obtain ⟨a, v⟩ := kv
    by_cases h : a = k
    · subst h
      simp only [aupdate, if_true]
      rw [alookup_cons, if_pos rfl, alookup_cons, if_pos rfl]
      simp
    · simp only [aupdate, if_neg h]
      rw [alookup_cons, if_neg h, alookup_cons, if_neg h]
      exact ih k d f

theorem alookup_aupdate_ne [DecidableEq κ] :
    ∀ (m : List (κ × ν)) (k k' : κ) (d : ν) (f : ν → ν), k' ≠ k →
      alookup (aupdate m k d f) k' = alookup m k' := by
  intro m
  induction m with
  | nil =>
    intro k k' d f h
    simp only [aupdate, alookup_cons, alookup_nil]
    rw [if_neg (fun he => h he.symm)]
  | cons kv rest ih =>
    intro k k' d f h
    obtain ⟨a, v⟩ := kv
    by_cases ha : a = k
    · subst ha
      simp only [aupdate, if_true]
      rw [alookup_cons, if_neg (fun he => h he.symm),
        alookup_cons, if_neg (fun he => h he.symm)]
    · simp only [aupdate, if_neg ha]
      rw [alookup_cons, alookup_cons]
      by_cases ha' : a = k'
      · rw [if_pos ha', if_pos ha']
      · rw [if_neg ha', if_neg ha']
        exact ih k k' d f h

/-! ### saddList fold lemmas -/

theorem mem_saddList [DecidableEq α] (l : List α) (x y : α) :
    y ∈ saddList l x ↔ y ∈ l ∨ y = x := by
  unfold saddList
  by_cases h : x ∈ l
  · simp only [if_pos h]
    constructor
    · exact Or.inl
    · rintro (hy | hy)
      · exact hy
      · exact hy ▸ h
  · simp [if_neg h]

theorem nodup_saddList [DecidableEq α] (l : List α) (x : α) (h : l.Nodup) :
    (saddList l x).Nodup := by
  unfold saddList
  by_cases hx : x ∈ l
  · simpa [if_pos hx]
  · simp only [if_neg hx]
    rw [List.nodup_append]
    exact ⟨h, List.nodup_singleton x,
      fun a ha hb => hx ((List.mem_singleton.mp hb) ▸ ha)⟩

theorem mem_foldl_saddList [DecidableEq α] :
    ∀ (rules l : List α) (x : α),
      x ∈ rules.foldl saddList l ↔ x ∈ l ∨ x ∈ rules := by
  intro rules
  induction rules with
  | nil => simp
  | cons r rest ih =>
    intro l x
    simp only [List.foldl_cons]
    rw [ih, mem_saddList]
    simp only [List.mem_cons]
    tauto

theorem nodup_foldl_saddList [DecidableEq α] :
    ∀ (rules l : List α), l.Nodup → (rules.foldl saddList l).Nodup := by
  intro rules
  induction rules with
  | nil => intro l h; simpa
  | cons r rest ih =>
    intro l h
    simp only [List.foldl_cons]
    exact ih _ (nodup_saddList l r h)

/-! ### Per-module violation count -/

theorem mvcFold_general :
    ∀ (vmap : ViolationMap) (acc : List (String × Nat)) (mid : String),
      (alookup (vmap.foldl
        (fun a kv => aupdate a (file_to_module kv.1.1) 0
          (fun n => n + kv.2.length)) acc) mid).getD 0
      = (alookup acc mid).getD 0 +
        ((vmap.filter (fun kv =>
          decide (file_to_module kv.1.1 = mid))).map
            (fun kv => kv.2.length)).sum := by
  intro vmap
  induction vmap with
  | nil => simp
  | cons kv rest ih =>
    intro acc mid
    simp only [List.foldl_cons]
    rw [ih]
    by_cases h : file_to_module kv.1.1 = mid
    · rw [List.filter_cons_of_pos (by simpa using h)]
      rw [h, alookup_aupdate_self]
      simp only [Option.getD_some, List.map_cons, List.sum_cons]
      omega
    · rw [List.filter_cons_of_neg (by simpa using h)]
      rw [alookup_aupdate_ne _ _ _ _ _ (fun he => h he.symm)]

theorem mvcFold_eq (vmap : ViolationMap) (mid : String) :
    (alookup (mvcFold vmap) mid).getD 0 =
      ((vmap.filter (fun kv =>
        decide (file_to_module kv.1.1 = mid))).map
          (fun kv => kv.2.length)).sum := by
  unfold mvcFold
  rw [mvcFold_general]
  simp [alookup, List.find?]

/-! ### Edge violation contributions -/

def edgeViolRules (st : BAState) (k : String × String) : List String :=
  (alookup st.edge_violations k).getD []

def importContrib (vmap : ViolationMap) (source_file source_module : String)
    (k : String × String) (imp : String) : List String :=
  if imp = "" then []
  else
    let resolved := resolve_import source_file imp
    let target_module := file_to_module resolved
    if target_module = source_module then []
    else if (source_module, target_module) = k then
      (alookup vmap (source_file, resolved)).getD []
    else []

def importsContrib (vmap : ViolationMap) (source_file source_module : String)
    (k : String × String) : List String → List String
  | [] => []
  | imp :: rest =>
    importContrib vmap source_file source_module k imp ++
      importsContrib vmap source_file source_module k rest

def edgeContrib (vmap : ViolationMap) (k : String × String) :
    List ImportEntry → List String
  | [] => []
  | e :: rest =>
    (if e.file = "" then []
     else importsContrib vmap e.file (file_to_module e.file) k e.imports) ++
      edgeContrib vmap k rest

theorem processImport_viol_mem (vmap : ViolationMap) (f m : String)
    (st : BAState) (imp : String) (k : String × String) (r : String) :
    r ∈ edgeViolRules (processImport vmap f m st imp) k ↔
      r ∈ edgeViolRules st k ∨ r ∈ importContrib vmap f m k imp := by
  unfold processImport importContrib
  by_cases h1 : imp = ""
  · simp [h1]
  · simp only [if_neg h1]
    by_cases h2 : file_to_module (resolve_import f imp) = m
    · simp [h2]
    · simp only [if_neg h2]
      cases hv : alookup vmap (f, resolve_import f imp) with
      | none => simp [edgeViolRules, hv]
      | some rules =>
        simp only [hv]
        by_cases hk : (m, file_to_module (resolve_import f imp)) = k
        · simp only [if_pos hk, edgeViolRules]
          rw [hk, alookup_aupdate_self]
          simp only [Option.getD_some]
          rw [mem_foldl_saddList]
        · simp only [if_neg hk, edgeViolRules]
          rw [alookup_aupdate_ne _ _ _ _ _ (fun he => hk he.symm)]
          simp

theorem processImport_viol_nodup (vmap : ViolationMap) (f m : String)
    (st : BAState) (imp : String)
    (h : ∀ k, (edgeViolRules st k).Nodup) :
    ∀ k, (edgeViolRules (processImport vmap f m st imp) k).Nodup := by
  intro k
  unfold processImport
  by_cases h1 : imp = ""
  · simpa [h1] using h k
  · simp only [if_neg h1]
    by_cases h2 : file_to_module (resolve_import f imp) = m
    · simpa [h2] using h k
    · simp only [if_neg h2]
      cases hv : alookup vmap (f, resolve_import f imp) with
      | none => simpa [edgeViolRules, hv] using h k
      | some rules =>
        simp only [hv, edgeViolRules]
        by_cases hk : (m, file_to_module (resolve_import f imp)) = k
        · rw [hk, alookup_aupdate_self]
          simp only [Option.getD_some]
          exact nodup_foldl_saddList rules _ (h k)
        · rw [alookup_aupdate_ne _ _ _ _ _ (fun he => hk he.symm)]
          exact h k

theorem importsFold_viol_mem (vmap : ViolationMap) (f m : String) :
    ∀ (imps : List String) (st : BAState) (k : String × String) (r : String),
      r ∈ edgeViolRules (imps.foldl (processImport vmap f m) st) k ↔
        r ∈ edgeViolRules st k ∨ r ∈ importsContrib vmap f m k imps := by
  intro imps
  induction imps with
  | nil => simp [importsContrib]
  | cons imp rest ih =>
    intro st k r
    simp only [List.foldl_cons, importsContrib, List.mem_append]
    rw [ih, processImport_viol_mem]
    tauto

theorem importsFold_viol_nodup (vmap : ViolationMap) (f m : String) :
    ∀ (imps : List String) (st : BAState),
      (∀ k, (edgeViolRules st k).Nodup) →
      ∀ k, (edgeViolRules (imps.foldl (processImport vmap f m) st) k).Nodup := by
  intro imps
  induction imps with
  | nil => intro st h; simpa using h
  | cons imp rest ih =>
    intro st h
    simp only [List.foldl_cons]
    exact ih _ (processImport_viol_nodup vmap f m st imp h)

theorem processEntry_viol_mem (vmap : ViolationMap) (st : BAState)
    (entry : ImportEntry) (k : String × String) (r : String) :
    r ∈ edgeViolRules (processEntry vmap st entry) k ↔
      r ∈ edgeViolRules st k ∨
        r ∈ (if entry.file = "" then []
          else importsContrib vmap entry.file (file_to_module entry.file) k
            entry.imports) := by
  unfold processEntry
  by_cases h : entry.file = ""
  · simp [h]
  · simp only [if_neg h]
    rw [importsFold_viol_mem]
    exact Iff.rfl

theorem processEntry_viol_nodup (vmap : ViolationMap) (st : BAState)
    (entry : ImportEntry) (h : ∀ k, (edgeViolRules st k).Nodup) :
    ∀ k, (edgeViolRules (processEntry vmap st entry) k).Nodup := by
  unfold processEntry
  by_cases hf : entry.file = ""
  · simpa [hf] using h
  · simp only [if_neg hf]
    exact importsFold_viol_nodup vmap entry.file (file_to_module entry.file)
      entry.imports _ h

theorem entriesFold_viol_mem (vmap : ViolationMap) :
    ∀ (entries : List ImportEntry) (st : BAState) (k : String × String)
      (r : String),
      r ∈ edgeViolRules (entries.foldl (processEntry vmap) st) k ↔
        r ∈ edgeViolRules st k ∨ r ∈ edgeContrib vmap k entries := by
  intro entries
  induction entries with
  | nil => simp [edgeContrib]
  | cons e rest ih =>
    intro st k r
    simp only [List.foldl_cons, edgeContrib, List.mem_append]
    rw [ih, processEntry_viol_mem]
    tauto

theorem entriesFold_viol_nodup (vmap : ViolationMap) :
    ∀ (entries : List ImportEntry) (st : BAState),
      (∀ k, (edgeViolRules st k).Nodup) →
      ∀ k, (edgeViolRules (entries.foldl (processEntry vmap) st) k).Nodup := by
  intro entries
  induction entries with
  | nil => intro st h; simpa using h
  | cons e rest ih =>
    intro st h
    simp only [List.foldl_cons]
    exact ih _ (processEntry_viol_nodup vmap st e h)

/-! ## Rule inference (scripts/analyze-graph.py) -/

/-- Embeds `module_id_to_slug`. -/
def module_id_to_slug (mid : String) : String :=
  String.mk (mid.data.map (fun c =>
    if c = '/' then '-' else if c = '\\' then '-' else c))

/-- Embeds `make_rule_id`. -/
def make_rule_id (slug rtype : String) : String :=
  "inferred-" ++ slug ++ "-" ++ rtype

/-- Embeds `GATEWAY_NAMES`. -/
def GATEWAY_NAMES : List String :=
  ["index", "__init__", "mod", "lib", "main", "exports", "public"]

/-- Embeds `file_basename_stem`. -/
def file_basename_stem (filepath : String) : String :=
  let base := (slashSegs filepath).getLastD ""
  match rfindIdx '.' base.data with
  | some i => if 0 < i then String.mk (base.data.take i) else base
  | none => base

/-- A proposed rule record of analyze-graph.py (`allowed_imports` is absent
from directionality rules, hence optional). -/
structure InferredRule where
  id : String
  type : String
  severity : String
  description : String
  source_glob : String
  forbidden_imports : List String
  allowed_imports : Option (List String)
  inferred : Bool
  confidence : Rat
deriving DecidableEq, Repr

/-- Round half to even at integer precision, the rounding of Python
`round` (and of `%.0f` formatting) on the exactly-representable values in
play. -/
def roundHalfEven (q : Rat) : Int :=
  let n := ⌊q⌋
  let r := q - n
  if r < 1 / 2 then n
  else if 1 / 2 < r then n + 1
  else if Even n then n else n + 1

/-- Python `round(x, 1)`. -/
def roundTenth (q : Rat) : Rat := (roundHalfEven (q * 10) : Rat) / 10

/-- Leaf path component of a raw import specifier, as `detect_gateway`
computes it. -/
def leafOf (target : String) : String :=
  let parts := slashSegs
    (String.mk (target.data.map (fun c => if c = '\\' then '/' else c)))
  parts.getLastD target

/-- Last-wins module lookup, the `{m["id"]: m for m in modules}`
comprehension. -/
def modInfoLookup (modules : List AdjModule) (mid : String) :
    Option AdjModule :=
  modules.reverse.find? (fun m => decide (m.id = mid))

/-- Incoming import details of a module, in edge order — the `incoming`
grouping of `detect_gateway`. -/
def incomingImports (edges : List AdjEdge) (mid : String) : List EdgeImport :=
  (edges.filter (fun e => decide (e.toMod = mid))).flatMap (·.imports)

/-- Leaf path components of the incoming raw specifiers of a module (the
keys counted by `target_file_counts`). -/
def gwLeaves (edges : List AdjEdge) (mid : String) : List String :=
  (incomingImports edges mid).map (fun i => leafOf i.target)

/-- The most common incoming leaf of a module (the `max` over the counts
dict; the first leaf in first-appearance order wins ties, as Python `max`
over dict iteration order does), or `none` with no incoming imports. -/
def gwTop (edges : List AdjEdge) (mid : String) : Option String :=
  match insertOrder (gwLeaves edges mid) with
  | [] => none
  | k0 :: krest =>
    some (krest.foldl
      (fun best k =>
        if (gwLeaves edges mid).count best < (gwLeaves edges mid).count k
        then k else best) k0)

/-- The percentage of incoming imports whose leaf is the most common one
(`top_count / total_imports * 100`). -/
def gwPct (edges : List AdjEdge) (mid : String) : Rat :=
  match gwTop edges mid with
  | none => 0
  | some top =>
    ((gwLeaves edges mid).count top : Rat) /
      ((incomingImports edges mid).length : Rat) * 100

/-- Embeds the per-module body of `detect_gateway`: at least two
incoming imports into a module of at least two files; the most common
leaf must be a gateway name, cover at least ninety percent, and the
rounded percentage must reach `min_confidence`. -/
def gatewayRuleFor (modules : List AdjModule) (edges : List AdjEdge)
    (min_confidence : Rat) (mid : String) : Option InferredRule :=
  match modInfoLookup modules mid with
  | none => none
  | some info =>
    if info.file_count ≤ 1 then none
    else if (incomingImports edges mid).length < 2 then none
    else
      match gwTop edges mid with
      | none => none
      | some top =>
        if file_basename_stem top ∉ GATEWAY_NAMES then none
        else if gwPct edges mid < 90 then none
        else if roundTenth (gwPct edges mid) < min_confidence then none
        else
          some
            { id := make_rule_id (module_id_to_slug mid) "gateway",
              type := "boundary",
              severity := "warning",
              description := toString (roundHalfEven (gwPct edges mid)) ++
                "% of imports into " ++ mid ++ " go through " ++ top ++
                " — enforce gateway pattern",
              source_glob := "**",
              forbidden_imports := [mid ++ "/**"],
              allowed_imports := some [mid ++ "/" ++ top],
              inferred := true,
              confidence := roundTenth (gwPct edges mid) }

/-- Embeds `detect_gateway`: candidate modules are the edge targets in
first-appearance order (the `incoming` dict key order). -/
def detect_gateway (modules : List AdjModule) (edges : List AdjEdge)
    (min_confidence : Rat) : List InferredRule :=
  (insertOrder (edges.map (·.toMod))).filterMap
    (gatewayRuleFor modules edges min_confidence)

/-- Distinct outgoing edge targets of a module — the `outgoing` set of
`detect_self_containment`. -/
def outgoingTargets (edges : List AdjEdge) (mid : String) : List String :=
  insertOrder ((edges.filter (fun e => decide (e.fromMod = mid))).map (·.toMod))

/-- Embeds `detect_self_containment`: with at least three modules in the
graph, every module of at least two files whose outgoing edges reach at
most one other module yields a confidence-100 boundary rule allowing only
itself (zero targets) or itself plus that target (one target).  The
redundant zero-file check of the source is subsumed by the two-file
check. -/
def detect_self_containment (modules : List AdjModule)
    (edges : List AdjEdge) (min_confidence : Rat) : List InferredRule :=
  if modules.length < 3 then []
  else
    modules.filterMap (fun m =>
      if m.file_count ≤ 1 then none
      else
        let targets := outgoingTargets edges m.id
        if 1 < targets.length then none
        else if (100 : Rat) < min_confidence then none
        else
          let rid := make_rule_id (module_id_to_slug m.id) "self-contained"
          match targets with
          | [] =>
            some
              { id := rid, type := "boundary", severity := "warning",
                description := m.id ++
                  " has no external imports — enforce self-containment",
                source_glob := m.id ++ "/**",
                forbidden_imports := ["**"],
                allowed_imports := some [m.id ++ "/**"],
                inferred := true, confidence := 100 }
          | t :: _ =>
            some
              { id := rid, type := "boundary", severity := "warning",
                description := m.id ++ " only imports from " ++ t ++
                  " — enforce self-containment",
                source_glob := m.id ++ "/**",
                forbidden_imports := ["**"],
                allowed_imports := some [m.id ++ "/**", t ++ "/**"],
                inferred := true, confidence := 100 })

/-! ## Claims -/

/-- The spec's three match forms for one pattern: literal string equality,
glob match of the import, and — for a dotted name containing no slash —
glob match after replacing every dot with a slash. -/
def spec_match_forms (imp pat : String) : Prop :=
  imp = pat ∨ path_matches imp pat = true ∨
    ('.' ∈ imp.data ∧ '/' ∉ imp.data ∧
      path_matches
        (String.mk (imp.data.map (fun c => if c = '.' then '/' else c)))
        pat = true)

/-- The spec's description of a forbidden import: it matches some
`forbidden_imports` pattern under the three match forms and matches no
`allowed_imports` pattern under those same forms (an allowed match
unconditionally overrides). -/
def spec_forbidden (imp : String) (inv : Invariant) : Prop :=
  (∃ pat ∈ inv.forbidden_imports, spec_match_forms imp pat) ∧
    ¬ ∃ pat ∈ inv.allowed_imports, spec_match_forms imp pat

instance (imp pat : String) : Decidable (spec_match_forms imp pat) := by
  unfold spec_match_forms
  infer_instance

instance (imp : String) (inv : Invariant) :
    Decidable (spec_forbidden imp inv) := by
  unfold spec_forbidden
  infer_instance

theorem matches3_iff_spec (imp pat : String) :
    matches3 imp (importAsPath imp) pat = true ↔ spec_match_forms imp pat := by
  unfold matches3 importAsPath spec_match_forms
  by_cases hd : '.' ∈ imp.data ∧ '/' ∉ imp.data
  · rw [if_pos hd]
    simp only [Bool.or_eq_true, beq_iff_eq]
    constructor
    · rintro ((h | h) | h)
      · exact Or.inr (Or.inl h)
      · exact Or.inl h
      · exact Or.inr (Or.inr ⟨hd.1, hd.2, h⟩)
    · rintro (h | h | ⟨_, _, h⟩)
      · exact Or.inl (Or.inr h)
      · exact Or.inl (Or.inl h)
      · exact Or.inr h
  · rw [if_neg hd]
    simp only [Bool.or_eq_true, beq_iff_eq]
    constructor
    · rintro ((h | h) | h)
      · exact Or.inr (Or.inl h)
      · exact Or.inl h
      · exact Or.inr (Or.inl h)
    · rintro (h | h | ⟨h1, h2, _⟩)
      · exact Or.inl (Or.inr h)
      · exact Or.inl (Or.inl h)
      · exact absurd ⟨h1, h2⟩ hd

theorem import_is_forbidden_iff_spec (imp : String) (inv : Invariant) :
    import_is_forbidden imp inv = true ↔ spec_forbidden imp inv := by
  unfold import_is_forbidden spec_forbidden
  by_cases hemp : inv.forbidden_imports.isEmpty
  · rw [if_pos hemp]
    have : inv.forbidden_imports = [] := List.isEmpty_iff.mp hemp
    simp [this]
  · rw [if_neg hemp]
    by_cases hany : inv.forbidden_imports.any
        (fun p => matches3 imp (importAsPath imp) p)
    · rw [if_pos hany]
      have hex : ∃ pat ∈ inv.forbidden_imports, spec_match_forms imp pat := by
        rcases List.any_eq_true.mp hany with ⟨p, hp, hm⟩
        exact ⟨p, hp, (matches3_iff_spec imp p).mp hm⟩
      simp only [Bool.not_eq_true', hex, true_and]
      rw [← Bool.not_eq_true]
      constructor
      · intro hno hexa
        rcases hexa with ⟨p, hp, hm⟩
        exact hno (List.any_eq_true.mpr
          ⟨p, hp, (matches3_iff_spec imp p).mpr hm⟩)
      · intro hnex hay
        rcases List.any_eq_true.mp hay with ⟨p, hp, hm⟩
        exact hnex ⟨p, hp, (matches3_iff_spec imp p).mp hm⟩
    · rw [if_neg hany]
      constructor
      · intro h
        exact absurd h (by simp)
      · rintro ⟨⟨p, hp, hm⟩, _⟩
        exact absurd (List.any_eq_true.mpr
          ⟨p, hp, (matches3_iff_spec imp p).mpr hm⟩) hany

/-- Claim C1: for a boundary invariant and an in-scope file, each distinct
non-empty extracted import yields exactly one violation carrying that
same string iff it matches some `forbidden_imports` pattern — as a
literal, as a glob, or, for a dotted name with no slash, after replacing
dots with slashes — and matches no `allowed_imports` pattern under the
same forms; in particular, with `forbidden_imports=["src/db/**"]` and
`allowed_imports=["src/db/client"]`, `src/db/client` is not forbidden and
`src/db/internal` is. -/
theorem c1_boundary_violations
    (inv : Invariant) (rel_path : String) (imports : List String)
    (recompile : String → Option (String → Bool)) (lines : List String)
    (htype : inv.type = "boundary")
    (hscope : file_in_scope rel_path inv = true)
    (hnd : imports.Nodup) (imp : String) (hmem : imp ∈ imports)
    (hne : imp ≠ "") :
    ((eval_rule_for_file inv rel_path imports recompile lines).countP
        (fun v => v.imp == some imp) =
      if spec_forbidden imp inv then 1 else 0) ∧
    import_is_forbidden "src/db/client"
      { forbidden_imports := ["src/db/**"],
        allowed_imports := ["src/db/client"] } = false ∧
    import_is_forbidden "src/db/internal"
      { forbidden_imports := ["src/db/**"],
        allowed_imports := ["src/db/client"] } = true := by
  refine ⟨?_, ?_, ?_⟩
  · unfold eval_rule_for_file
    rw [if_neg (by simp [hscope])]
    rw [if_pos (by simp [htype])]
    rw [if_neg (by simp [List.isEmpty_iff, List.ne_nil_of_mem hmem])]
    rw [List.countP_map]
    have hpred : ∀ x ∈ imports.filter
        (fun i => i ≠ "" && import_is_forbidden i inv),
        (((fun v : Violation => v.imp == some imp) ∘
          mkBoundaryViolation inv rel_path) x = true ↔
          (fun y => y == imp) x = true) := by
      intro x _
      simp [mkBoundaryViolation]
    rw [List.countP_congr hpred]
    have hcount : (imports.filter
        (fun i => i ≠ "" && import_is_forbidden i inv)).countP (· == imp) =
        (imports.filter (fun i => i ≠ "" && import_is_forbidden i inv)).count
          imp := rfl
    by_cases hforb : import_is_forbidden imp inv = true
    · rw [if_pos ((import_is_forbidden_iff_spec imp inv).mp hforb)]
      rw [hcount, List.count_filter (by simp [hne, hforb])]
      exact List.count_eq_one_of_mem hnd hmem
    · rw [if_neg (fun hs =>
        hforb ((import_is_forbidden_iff_spec imp inv).mpr hs))]
      rw [hcount]
      refine List.count_eq_zero.mpr ?_
      intro hmemf
      have hq := (List.mem_filter.mp hmemf).2
      simp [hne] at hq
      exact hforb hq
  · simp only [import_is_forbidden, matches3, importAsPath]
    norm_num [path_matches, globTokens, rmatch]
  · simp only [import_is_forbidden, matches3, importAsPath]
    norm_num [path_matches, globTokens, rmatch]
    decide

/-- Witness for `c1_boundary_violations`: a concrete boundary invariant,
file and import list on which the forbidden import yields exactly one
violation. -/
theorem c1_boundary_violations_witness :
    ((eval_rule_for_file
        { id := "r", type := "boundary", severity := "error",
          description := "d", forbidden_imports := ["src/db/**"],
          allowed_imports := ["src/db/client"] }
        "src/routes/users.ts" ["src/db/internal", "src/db/client"]
        (fun _ => none) []).countP
      (fun v => v.imp == some "src/db/internal") =
      if spec_forbidden "src/db/internal"
        { id := "r", type := "boundary", severity := "error",
          description := "d", forbidden_imports := ["src/db/**"],
          allowed_imports := ["src/db/client"] } then 1 else 0) :=
  (c1_boundary_violations _ "src/routes/users.ts" _ (fun _ => none) []
    rfl (by simp [file_in_scope, orFalsy]) (by decide) "src/db/internal"
    (by decide) (by decide)).1

/-- Claim C2: the module id is a pure function of the file path: the first
two slash-separated segments joined by `/` when there are at least three,
the first segment alone for exactly two, and the extension-stripped file
name for a single segment; in particular on the four spec examples. -/
theorem c2_module_id
    : (∀ p : String, '\\' ∉ p.data → file_to_module p = spec_module_id p) ∧
      file_to_module "src/routes/users.ts" = "src/routes" ∧
      file_to_module "src/utils.ts" = "src" ∧
      file_to_module "utils.ts" = "utils" ∧
      file_to_module "lib/foo/bar/baz.ts" = "lib/foo" := by
  refine ⟨?_, by decide, by decide, by decide, by decide⟩
  intro p h
  have hmap : p.data.map (fun c => if c = '\\' then '/' else c) = p.data := by
    have hid : p.data = p.data.map id := (List.map_id _).symm
    nth_rewrite 2 [hid]
    apply List.map_congr_left
    intro a ha
    have : a ≠ '\\' := fun he => h (he ▸ ha)
    simp [this]
  unfold file_to_module spec_module_id
  rw [hmap]

/-- Witness for the universally quantified part of `c2_module_id` at a
concrete backslash-free path. -/
theorem c2_module_id_witness :
    file_to_module "a/b/c.py" = spec_module_id "a/b/c.py" :=
  c2_module_id.1 "a/b/c.py" (by decide)

/-- Claim C10: the glob matcher is not total over pattern strings: the
pattern `(` translates to itself, the anchored result `^($` fails to
compile (unterminated group), so `path_matches` raises (modelled `none`)
instead of returning a boolean, and both `file_in_scope` and
`import_is_forbidden` raise on a configuration holding such a glob. -/
theorem c10_glob_matcher_not_total :
    glob_to_regex "(".data = "(".data ∧
    pyRegexOk (anchorRegex (glob_to_regex "(".data)) 0 = false ∧
    path_matches_opt "src/db" "(" = none ∧
    file_in_scope_opt "src/db/x.ts" { source_glob := some "(" } = none ∧
    import_is_forbidden_opt "x" { forbidden_imports := ["("] } = none := by
  have hpipe : glob_to_regex "(".data = "(".data := by
    simp [glob_to_regex, replaceStr]
  have hok : pyRegexOk (anchorRegex (glob_to_regex "(".data)) 0 = false := by
    rw [hpipe]
    simp [anchorRegex, pyRegexOk]
  have hpm : path_matches_opt "src/db" "(" = none := by
    unfold path_matches_opt
    rw [hok]
    simp
  refine ⟨hpipe, hok, hpm, ?_, ?_⟩
  · have hpm2 : path_matches_opt "src/db/x.ts" "(" = none := by
      unfold path_matches_opt
      rw [hok]
      simp
    simp [file_in_scope_opt, orFalsy, hpm2]
  · have hpm3 : path_matches_opt "x" "(" = none := by
      unfold path_matches_opt
      rw [hok]
      simp
    simp [import_is_forbidden_opt, anyOpt, matches3_opt, optOr, hpm3,
      importAsPath]

/-- Claim C5: import extraction never raises at its public interface: an
extension outside the dispatch table yields `[]`; an unreadable file
(`none` content) yields `[]` for every path and extractor; and a Python
file whose text fails to parse yields `[]`, never a partial list. -/
theorem c5_extraction_total
    : (∀ (bodies : Extractor → String → List String)
        (pyParse : String → Option (List PyNode)) (path : String)
        (content : Option String),
        EXT_MAP.find? (fun kv =>
          kv.1 == String.mk ((splitextExt path).data.map Char.toLower)) =
            none →
        extract_imports bodies pyParse path content = []) ∧
      (∀ (bodies : Extractor → String → List String)
        (pyParse : String → Option (List PyNode)) (path : String),
        extract_imports bodies pyParse path none = []) ∧
      (∀ (bodies : Extractor → String → List String)
        (pyParse : String → Option (List PyNode)) (path : String)
        (src : String) (k : String),
        EXT_MAP.find? (fun kv =>
          kv.1 == String.mk ((splitextExt path).data.map Char.toLower)) =
            some (k, .python) →
        pyParse src = none →
        extract_imports bodies pyParse path (some src) = []) := by
  refine ⟨?_, ?_, ?_⟩
  · intro bodies pyParse path content hfind
    simp only [extract_imports]
    rw [hfind]
  · intro bodies pyParse path
    simp only [extract_imports]
    rcases hfind : EXT_MAP.find? (fun kv =>
        kv.1 == String.mk ((splitextExt path).data.map Char.toLower)) with
      _ | ⟨k, e⟩ <;> rw [hfind]
    cases e <;> rfl
  · intro bodies pyParse path src k hfind hparse
    simp only [extract_imports]
    rw [hfind]
    simp [extract_python_imports, hparse]

/-- Claim C3: for every plain glob pattern the translated text is the
anchored-fragment rendering in which a dot is escaped (matching only a
literal dot), a double star becomes `.*` (substituted before the single
star, so it is never swallowed), and a single star becomes `[^/]*`; the
matcher decides exactly the full-string denotational language of that
rendering (a literal consumes itself, `.*` any characters, `[^/]*` any
slash-free characters, nothing consumes the rest of the string — so there
are no substring matches), as the concrete anchoring, dot and star facts
illustrate. -/
theorem c3_glob_to_regex_semantics
    : (∀ g : List Char, plainPattern g →
        glob_to_regex g = toksString (globTokens g)) ∧
      (∀ p g : String,
        path_matches p g = true ↔ Lang (globTokens g.data) p.data) ∧
      glob_to_regex "a**b".data = "a.*b".data ∧
      glob_to_regex "a*b".data = "a[^/]*b".data ∧
      glob_to_regex "a.b".data = ['a', '\\', '.', 'b'] ∧
      path_matches "a/b" "a**b" = true ∧
      path_matches "a/b" "a*b" = false ∧
      path_matches "axyb" "a*b" = true ∧
      path_matches "axb" "a.b" = false ∧
      path_matches "a.b" "a.b" = true ∧
      path_matches "ab" "a" = false ∧
      path_matches "xab" "ab" = false := by
  refine ⟨fun g hg => glob_to_regex_plain_eq g hg.2,
    fun p g => rmatch_iff_lang (globTokens g.data) p.data,
    ?_, ?_, ?_, ?_, ?_, ?_, ?_, ?_, ?_, ?_⟩
  · simp [glob_to_regex, replaceStr]
  · simp [glob_to_regex, replaceStr]
  · simp [glob_to_regex, replaceStr]
  · simp [path_matches, globTokens, rmatch]
  · simp [path_matches, globTokens, rmatch]
  · simp [path_matches, globTokens, rmatch]
  · simp [path_matches, globTokens, rmatch]
  · simp [path_matches, globTokens, rmatch]
  · simp [path_matches, globTokens, rmatch]
  · simp [path_matches, globTokens, rmatch]

/-- Witness for `c3_glob_to_regex_semantics`: the pipeline output on the
concrete plain pattern `src/db/**`. -/
theorem c3_glob_to_regex_semantics_witness :
    glob_to_regex "src/db/**".data =
      toksString (globTokens "src/db/**".data) :=
  c3_glob_to_regex_semantics.1 "src/db/**".data (by decide)

theorem findIdx_first_spec (p : String → Bool) :
    ∀ (l : List String) (i : Nat), l.findIdx? p = some i →
      ∃ h : i < l.length, p (l.get ⟨i, h⟩) = true ∧
        ∀ j, (hj : j < i) → p (l.get ⟨j, Nat.lt_trans hj h⟩) = false := by
  intro l
  induction l with
  | nil => intro i h; simp at h
  | cons x xs ih =>
    intro i h
    rw [List.findIdx?_cons] at h
    by_cases hx : p x
    · simp [hx] at h
      subst h
      exact ⟨by simp, by simpa using hx, fun j hj => absurd hj (by omega)⟩
    · simp [hx] at h
      rcases h with ⟨i', hi', rfl⟩
      rcases ih i' hi' with ⟨hlt, hp, hprev⟩
      refine ⟨by simpa using Nat.succ_lt_succ hlt, by simpa using hp, ?_⟩
      intro j hj
      rcases j with _ | j'
      · simpa using hx
      · simpa using hprev j' (by omega)

/-- Claim C4 (amended): for a pattern-type invariant on an in-scope file
with a non-empty pattern that compiles, evaluation yields at most one
violation, namely one for the first line (in scan order) matching the
compiled pattern; the `line` field of that violation holds the DECIMAL
STRING of the 1-based line number (not an integer); and a pattern that
fails to compile yields zero violations. -/
theorem c4_pattern_rule
    : (∀ (inv : Invariant) (rel_path : String) (imports : List String)
        (recompile : String → Option (String → Bool)) (lines : List String)
        (m : String → Bool),
        inv.type = "pattern" → file_in_scope rel_path inv = true →
        ¬ inv.forbidden_pattern = "" →
        recompile (String.mk (translate_posix inv.forbidden_pattern.data)) =
          some m →
        eval_rule_for_file inv rel_path imports recompile lines =
          (match lines.findIdx? m with
           | none => []
           | some i => [mkPatternViolation inv rel_path (i + 1)])) ∧
      (∀ (lines : List String) (m : String → Bool) (i : Nat),
        lines.findIdx? m = some i →
          ∃ h : i < lines.length, m (lines.get ⟨i, h⟩) = true ∧
            ∀ j, (hj : j < i) →
              m (lines.get ⟨j, Nat.lt_trans hj h⟩) = false) ∧
      (∀ (inv : Invariant) (rel_path : String) (imports : List String)
        (recompile : String → Option (String → Bool)) (lines : List String),
        inv.type = "pattern" →
        recompile (String.mk (translate_posix inv.forbidden_pattern.data)) =
          none →
        eval_rule_for_file inv rel_path imports recompile lines = []) ∧
      (∀ (inv : Invariant) (rel_path : String) (n : Nat),
        (mkPatternViolation inv rel_path n).line =
          some (.str (toString n))) := by
  refine ⟨?_, fun lines m i => findIdx_first_spec m lines i, ?_,
    fun _ _ _ => rfl⟩
  · intro inv rel_path imports recompile lines m htype hscope hfp hcomp
    unfold eval_rule_for_file
    rw [if_neg (by simp [hscope]), if_neg (by simp [htype]),
      if_pos (by simp [htype]), if_neg (by simpa using hfp), hcomp]
  · intro inv rel_path imports recompile lines htype hcomp
    unfold eval_rule_for_file
    by_cases hscope : file_in_scope rel_path inv = true
    · rw [if_neg (by simp [hscope]), if_neg (by simp [htype]),
        if_pos (by simp [htype])]
      by_cases hfp : inv.forbidden_pattern = ""
      · rw [if_pos (by simp [hfp])]
      · rw [if_neg (by simpa using hfp), hcomp]
    · rw [if_pos (by simpa using hscope)]

/-- Witness for `c4_pattern_rule`: a concrete pattern rule whose first
matching line is the second one. -/
theorem c4_pattern_rule_witness :
    eval_rule_for_file
        { id := "r", type := "pattern", severity := "warning",
          description := "d", forbidden_pattern := "x" }
        "f.ts" [] (fun _ => some (fun l => l == "x")) ["y", "x"] =
      (match (["y", "x"] : List String).findIdx? (fun l => l == "x") with
       | none => []
       | some i =>
         [mkPatternViolation
           { id := "r", type := "pattern", severity := "warning",
             description := "d", forbidden_pattern := "x" } "f.ts" (i + 1)]) :=
  c4_pattern_rule.1 _ "f.ts" [] _ ["y", "x"] (fun l => l == "x") rfl
    (by simp [file_in_scope, orFalsy]) (by decide) rfl

/-- Claim C4 counterexample: on a concrete matching file the emitted
violation's `line` field is the STRING `"1"`, which is not the integer
`1` the claim (and the spec's violation shape) promises. -/
theorem c4_line_is_string_counterexample :
    eval_rule_for_file
        { id := "r", type := "pattern", severity := "warning",
          description := "d", forbidden_pattern := "x" }
        "f.ts" [] (fun _ => some (fun l => l == "x")) ["x"] =
      [{ rule := "r", severity := "warning", message := "d", file := "f.ts",
         imp := none, line := some (.str "1"), package := none }] ∧
    (JVal.str "1" ≠ JVal.int 1) := by
  constructor
  · simp [eval_rule_for_file, file_in_scope, orFalsy, mkPatternViolation,
      List.findIdx?, List.findIdx?_cons]
    rfl
  · simp

/-- Claim C6 counterexample: the Java stripper DELETES comment characters
(`a/*x*/b` becomes the two-character `ab`, so neither length nor newline
positions are preserved), and the JS/TS stripper blanks template-string
content rather than preserving string-state characters verbatim (`` `a` ``
becomes three spaces, and an escaped newline inside a template is blanked
too). -/
theorem c6_stripper_counterexample :
    (strip_java_comments "a/*x*/b".data).length ≠ ("a/*x*/b".data).length ∧
    strip_java_comments "a/*x*/b".data = "ab".data ∧
    strip_comments "`a`".data = "   ".data ∧
    strip_comments "`\\\n`".data = "    ".data := by
  refine ⟨?_, ?_, ?_, ?_⟩
  · simp [strip_java_comments, jBlockRest]
  · simp [strip_java_comments, jBlockRest]
  · simp [strip_comments, jsStripGo]
  · simp [strip_comments, jsStripGo]

/-- Claim C6 (amended): the JS/TS stripper preserves the input's length
and only ever blanks characters (every output character is the
corresponding input character or a space; comment text and template-string
content, including escaped newlines inside templates, are blanked, while
single- and double-quoted string content is preserved); the Java stripper
instead deletes comment characters outright — its output is a subsequence
of its input — while copying string literals through verbatim. -/
theorem c6_stripper_amended
    : (∀ source : List Char,
        (strip_comments source).length = source.length ∧
        ∀ i : Nat,
          (strip_comments source).getD i ' ' = source.getD i ' ' ∨
          (strip_comments source).getD i ' ' = ' ') ∧
      (∀ content : List Char,
        List.Sublist (strip_java_comments content) content) ∧
      strip_comments "x = 'import a'".data = "x = 'import a'".data ∧
      strip_comments "// c\nx".data = "    \nx".data ∧
      strip_java_comments "s = \"a//b\"".data = "s = \"a//b\"".data := by
  refine ⟨?_, strip_java_comments_sublist, ?_, ?_, ?_⟩
  · intro source
    have hsh := jsStripGo_shadows .code [] 0 [] source
    exact ⟨shadows_length hsh, shadows_getD hsh⟩
  · simp [strip_comments, jsStripGo, isPrevTokenValue]
  · simp [strip_comments, jsStripGo, isPrevTokenValue]
  · simp [strip_java_comments, jStrPair]

/-- Gateway example graph: a three-file module `lib` and a two-file module
`src/x` (the spec's gateway-detection scenario). -/
def gwExModules : List AdjModule :=
  [⟨"lib", ["lib/a.ts", "lib/b.ts", "lib/index.ts"], 3, 0⟩,
   ⟨"src/x", ["src/x/m.ts", "src/x/n.ts"], 2, 0⟩]

/-- Ten incoming imports into `lib`, nine of which target leaf `index`. -/
def gwExEdges : List AdjEdge :=
  [⟨"src/x", "lib",
    List.replicate 9 ⟨"src/x/m.ts", "../lib/index"⟩ ++
      [⟨"src/x/n.ts", "../lib/helpers"⟩], false, []⟩]

/-- Thirty-two incoming imports into `lib`, twenty-nine of which target
leaf `index` (a 90.625 percent share). -/
def gwCexEdges : List AdjEdge :=
  [⟨"src/x", "lib",
    List.replicate 29 ⟨"src/x/m.ts", "../lib/index"⟩ ++
      List.replicate 3 ⟨"src/x/n.ts", "../lib/helpers"⟩, false, []⟩]

theorem gatewayRuleFor_emits (modules : List AdjModule)
    (edges : List AdjEdge) (minc : Rat) (mid : String) (info : AdjModule)
    (top : String) (hlookup : modInfoLookup modules mid = some info)
    (hfc : 2 ≤ info.file_count)
    (hlen : 2 ≤ (incomingImports edges mid).length)
    (htop : gwTop edges mid = some top)
    (hstem : file_basename_stem top ∈ GATEWAY_NAMES)
    (h90 : 90 ≤ gwPct edges mid)
    (hminc : minc ≤ roundTenth (gwPct edges mid)) :
    gatewayRuleFor modules edges minc mid =
      some
        { id := make_rule_id (module_id_to_slug mid) "gateway",
          type := "boundary", severity := "warning",
          description := toString (roundHalfEven (gwPct edges mid)) ++
            "% of imports into " ++ mid ++ " go through " ++ top ++
            " — enforce gateway pattern",
          source_glob := "**", forbidden_imports := [mid ++ "/**"],
          allowed_imports := some [mid ++ "/" ++ top], inferred := true,
          confidence := roundTenth (gwPct edges mid) } := by
  unfold gatewayRuleFor
  rw [hlookup]
  dsimp only
  rw [if_neg (by omega), if_neg (by omega), htop]
  dsimp only
  rw [if_neg (not_not_intro hstem), if_neg (not_lt.mpr h90),
    if_neg (not_lt.mpr hminc)]

/-- Claim C7 (amended): for every module of at least two member files
receiving at least two incoming cross-module imports, when the single most
common leaf of the incoming raw specifiers has a gateway-name stem and
covers at least ninety percent of the incoming imports and the percentage
ROUNDED TO ONE DECIMAL reaches `min_confidence`, a gateway rule is
proposed whose confidence is that rounded percentage; on the spec's
example (three files, ten incoming imports, nine to leaf `index`) a rule
of confidence 90 appears at `min_confidence` 90 and none at 91. -/
theorem c7_gateway_detection
    : (∀ (modules : List AdjModule) (edges : List AdjEdge) (minc : Rat)
        (mid : String) (info : AdjModule) (top : String),
        modInfoLookup modules mid = some info →
        2 ≤ info.file_count →
        2 ≤ (incomingImports edges mid).length →
        gwTop edges mid = some top →
        file_basename_stem top ∈ GATEWAY_NAMES →
        90 ≤ gwPct edges mid →
        minc ≤ roundTenth (gwPct edges mid) →
        ({ id := make_rule_id (module_id_to_slug mid) "gateway",
           type := "boundary", severity := "warning",
           description := toString (roundHalfEven (gwPct edges mid)) ++
             "% of imports into " ++ mid ++ " go through " ++ top ++
             " — enforce gateway pattern",
           source_glob := "**", forbidden_imports := [mid ++ "/**"],
           allowed_imports := some [mid ++ "/" ++ top], inferred := true,
           confidence := roundTenth (gwPct edges mid) } : InferredRule) ∈
          detect_gateway modules edges minc) ∧
      detect_gateway gwExModules gwExEdges 90 =
        [{ id := "inferred-lib-gateway", type := "boundary",
           severity := "warning",
           description :=
             "90% of imports into lib go through index — enforce gateway pattern",
           source_glob := "**", forbidden_imports := ["lib/**"],
           allowed_imports := some ["lib/index"], inferred := true,
           confidence := 90 }] ∧
      detect_gateway gwExModules gwExEdges 91 = [] := by
  have hpct : gwPct gwExEdges "lib" = 90 := by
    have h1 : gwTop gwExEdges "lib" = some "index" := by decide
    have hc : (gwLeaves gwExEdges "lib").count "index" = 9 := by decide
    have hl : (incomingImports gwExEdges "lib").length = 10 := by decide
    unfold gwPct
    rw [h1]
    dsimp only
    rw [hc, hl]
    norm_num
  have hfloor90 : roundHalfEven (90 : Rat) = 90 := by
    unfold roundHalfEven
    norm_num
  have hrt90 : roundTenth (90 : Rat) = 90 := by
    unfold roundTenth roundHalfEven
    norm_num
  refine ⟨?_, ?_, ?_⟩
  · intro modules edges minc mid info top hlookup hfc hlen htop hstem h90 hminc
    have hne : incomingImports edges mid ≠ [] := by
      intro he
      rw [he] at hlen
      simp at hlen
    have hmem : mid ∈ edges.map (·.toMod) := by
      by_contra hnm
      have hfil : edges.filter (fun e => decide (e.toMod = mid)) = [] := by
        refine List.filter_eq_nil_iff.mpr ?_
        intro e he
        simp only [decide_eq_true_eq]
        intro hmid
        exact hnm (List.mem_map.mpr ⟨e, he, hmid⟩)
      exact hne (by simp [incomingImports, hfil])
    exact List.mem_filterMap.mpr ⟨mid, (mem_insertOrder _ _).mpr hmem,
      gatewayRuleFor_emits modules edges minc mid info top hlookup hfc hlen
        htop hstem h90 hminc⟩
  · unfold detect_gateway
    rw [show insertOrder (gwExEdges.map (·.toMod)) = ["lib"] from by decide]
    have hrule := gatewayRuleFor_emits gwExModules gwExEdges 90 "lib"
      ⟨"lib", ["lib/a.ts", "lib/b.ts", "lib/index.ts"], 3, 0⟩ "index"
      (by decide) (by decide) (by decide) (by decide) (by decide)
      (by rw [hpct]) (by rw [hpct, hrt90])
    rw [List.filterMap_cons, hrule]
    rw [hpct, hfloor90, hrt90]
    rfl
  · unfold detect_gateway
    rw [show insertOrder (gwExEdges.map (·.toMod)) = ["lib"] from by decide]
    have hnone : gatewayRuleFor gwExModules gwExEdges 91 "lib" = none := by
      unfold gatewayRuleFor
      rw [show modInfoLookup gwExModules "lib" =
        some ⟨"lib", ["lib/a.ts", "lib/b.ts", "lib/index.ts"], 3, 0⟩ from by
          decide]
      dsimp only
      rw [if_neg (by decide), if_neg (by decide),
        show gwTop gwExEdges "lib" = some "index" from by decide]
      dsimp only
      rw [if_neg (by decide), if_neg (by rw [hpct]; norm_num),
        if_pos (by rw [hpct, hrt90]; norm_num)]
    rw [List.filterMap_cons, hnone]
    rfl

/-- Witness for `c7_gateway_detection`: the emission condition applied to
the ten-import example. -/
theorem c7_gateway_detection_witness :
    ({ id := "inferred-lib-gateway", type := "boundary",
       severity := "warning",
       description := toString (roundHalfEven (gwPct gwExEdges "lib")) ++
         "% of imports into " ++ "lib" ++ " go through " ++ "index" ++
         " — enforce gateway pattern",
       source_glob := "**", forbidden_imports := ["lib/**"],
       allowed_imports := some ["lib/index"], inferred := true,
       confidence := roundTenth (gwPct gwExEdges "lib") } : InferredRule) ∈
      detect_gateway gwExModules gwExEdges 90 :=
  c7_gateway_detection.1 gwExModules gwExEdges 90 "lib"
    ⟨"lib", ["lib/a.ts", "lib/b.ts", "lib/index.ts"], 3, 0⟩ "index"
    (by decide) (by decide) (by decide) (by decide) (by decide)
    (by
      have h1 : gwTop gwExEdges "lib" = some "index" := by decide
      have hc : (gwLeaves gwExEdges "lib").count "index" = 9 := by decide
      have hl : (incomingImports gwExEdges "lib").length = 10 := by decide
      unfold gwPct
      rw [h1]
      dsimp only
      rw [hc, hl]
      norm_num)
    (by
      have h1 : gwTop gwExEdges "lib" = some "index" := by decide
      have hc : (gwLeaves gwExEdges "lib").count "index" = 9 := by decide
      have hl : (incomingImports gwExEdges "lib").length = 10 := by decide
      unfold gwPct
      rw [h1]
      dsimp only
      rw [hc, hl]
      unfold roundTenth roundHalfEven
      norm_num)

set_option maxRecDepth 100000 in
/-- Claim C7 counterexample: with thirty-two incoming imports of which
twenty-nine target leaf `index`, the percentage is 725/8 (90.625) but the
proposed rule carries confidence 453/5 (90.6) — the percentage rounded to
one decimal, not the percentage itself. -/
theorem c7_confidence_is_rounded_counterexample :
    gwPct gwCexEdges "lib" = 725 / 8 ∧
    (detect_gateway gwExModules gwCexEdges 90).map (·.confidence) =
      [453 / 5] ∧
    ((453 : Rat) / 5 ≠ 725 / 8) := by
  have h1 : gwTop gwCexEdges "lib" = some "index" := by decide
  have hc : (gwLeaves gwCexEdges "lib").count "index" = 29 := by decide
  have hl : (incomingImports gwCexEdges "lib").length = 32 := by decide
  have hpct : gwPct gwCexEdges "lib" = 725 / 8 := by
    unfold gwPct
    rw [h1]
    dsimp only
    rw [hc, hl]
    norm_num
  have hfl : (⌊(725 : Rat) / 8 * 10⌋ : Int) = 906 := by
    rw [Int.floor_eq_iff]
    norm_num
  have hrt : roundTenth ((725 : Rat) / 8) = 453 / 5 := by
    unfold roundTenth roundHalfEven
    rw [hfl]
    norm_num
  have hfl2 : (⌊(725 : Rat) / 8⌋ : Int) = 90 := by
    rw [Int.floor_eq_iff]
    norm_num
  refine ⟨hpct, ?_, by norm_num⟩
  unfold detect_gateway
  rw [show insertOrder (gwCexEdges.map (·.toMod)) = ["lib"] from by decide]
  have hrule := gatewayRuleFor_emits gwExModules gwCexEdges 90 "lib"
    ⟨"lib", ["lib/a.ts", "lib/b.ts", "lib/index.ts"], 3, 0⟩ "index"
    (by decide) (by decide) (by rw [hl]; norm_num) (by decide) (by decide)
    (by rw [hpct]; norm_num) (by rw [hpct, hrt]; norm_num)
  rw [List.filterMap_cons, hrule]
  simp [hpct, hrt]

/-- Claim C8: with at least three modules in the graph, every module of at
least two member files whose outgoing cross-module edges reach at most one
other module yields a confidence-100 rule restricting its external imports
to itself (zero targets) or to itself plus that single target; with fewer
than three modules the detector proposes nothing.  The rule emission is
gated on `min_confidence ≤ 100`, the only regime in which any rule can
pass the gate. -/
theorem c8_self_containment
    : (∀ (modules : List AdjModule) (edges : List AdjEdge) (minc : Rat)
        (m : AdjModule), 3 ≤ modules.length → m ∈ modules →
        2 ≤ m.file_count → minc ≤ 100 →
        outgoingTargets edges m.id = [] →
        ({ id := make_rule_id (module_id_to_slug m.id) "self-contained",
           type := "boundary", severity := "warning",
           description := m.id ++
             " has no external imports — enforce self-containment",
           source_glob := m.id ++ "/**",
           forbidden_imports := ["**"],
           allowed_imports := some [m.id ++ "/**"],
           inferred := true, confidence := 100 } : InferredRule) ∈
          detect_self_containment modules edges minc) ∧
      (∀ (modules : List AdjModule) (edges : List AdjEdge) (minc : Rat)
        (m : AdjModule) (t : String), 3 ≤ modules.length → m ∈ modules →
        2 ≤ m.file_count → minc ≤ 100 →
        outgoingTargets edges m.id = [t] →
        ({ id := make_rule_id (module_id_to_slug m.id) "self-contained",
           type := "boundary", severity := "warning",
           description := m.id ++ " only imports from " ++ t ++
             " — enforce self-containment",
           source_glob := m.id ++ "/**",
           forbidden_imports := ["**"],
           allowed_imports := some [m.id ++ "/**", t ++ "/**"],
           inferred := true, confidence := 100 } : InferredRule) ∈
          detect_self_containment modules edges minc) ∧
      (∀ (modules : List AdjModule) (edges : List AdjEdge) (minc : Rat),
        modules.length < 3 → detect_self_containment modules edges minc = []) := by
  refine ⟨?_, ?_, ?_⟩
  · intro modules edges minc m hlen hm hfc hminc htargets
    unfold detect_self_containment
    rw [if_neg (by omega)]
    refine List.mem_filterMap.mpr ⟨m, hm, ?_⟩
    simp only [htargets]
    rw [if_neg (by omega), if_neg (by simp), if_neg (by exact not_lt.mpr hminc)]
  · intro modules edges minc m t hlen hm hfc hminc htargets
    unfold detect_self_containment
    rw [if_neg (by omega)]
    refine List.mem_filterMap.mpr ⟨m, hm, ?_⟩
    simp only [htargets]
    rw [if_neg (by omega), if_neg (by simp), if_neg (by exact not_lt.mpr hminc)]
  · intro modules edges minc hlen
    unfold detect_self_containment
    rw [if_pos hlen]

/-- Witness for `c8_self_containment`: a three-module graph in which the
two-file module `a/b` has no outgoing edge (first part), the same graph
with one outgoing edge `a/b` to `c` (second part), and a two-module graph
in which nothing is proposed (third part). -/
theorem c8_self_containment_witness :
    (({ id := "inferred-a-b-self-contained", type := "boundary",
        severity := "warning",
        description := "a/b has no external imports — enforce self-containment",
        source_glob := "a/b/**", forbidden_imports := ["**"],
        allowed_imports := some ["a/b/**"], inferred := true,
        confidence := 100 } : InferredRule) ∈
      detect_self_containment
        [⟨"a/b", ["a/b/x.ts", "a/b/y.ts"], 2, 0⟩,
         ⟨"c", ["c/x.ts"], 1, 0⟩, ⟨"d", ["d/x.ts"], 1, 0⟩] [] 90) ∧
    (({ id := "inferred-a-b-self-contained", type := "boundary",
        severity := "warning",
        description := "a/b only imports from c — enforce self-containment",
        source_glob := "a/b/**", forbidden_imports := ["**"],
        allowed_imports := some ["a/b/**", "c/**"], inferred := true,
        confidence := 100 } : InferredRule) ∈
      detect_self_containment
        [⟨"a/b", ["a/b/x.ts", "a/b/y.ts"], 2, 0⟩,
         ⟨"c", ["c/x.ts"], 1, 0⟩, ⟨"d", ["d/x.ts"], 1, 0⟩]
        [⟨"a/b", "c", [⟨"a/b/x.ts", "../c/x"⟩], false, []⟩] 90) ∧
    detect_self_containment [⟨"a/b", ["a/b/x.ts", "a/b/y.ts"], 2, 0⟩,
        ⟨"c", ["c/x.ts"], 1, 0⟩] [] 90 = [] :=
  ⟨c8_self_containment.1 _ _ 90 ⟨"a/b", ["a/b/x.ts", "a/b/y.ts"], 2, 0⟩
      (by decide) (by decide) (by decide) (by norm_num) (by decide),
   c8_self_containment.2.1 _ _ 90 ⟨"a/b", ["a/b/x.ts", "a/b/y.ts"], 2, 0⟩
      "c" (by decide) (by decide) (by decide) (by norm_num) (by decide),
   c8_self_containment.2.2 _ _ 90 (by decide)⟩

/-- Witness for `c5_extraction_total`: an unknown extension, an unreadable
TypeScript file and an unparseable Python file each yield the empty
list. -/
theorem c5_extraction_total_witness :
    extract_imports (fun _ _ => ["x"]) (fun _ => some []) "a.zzz"
        (some "text") = [] ∧
    extract_imports (fun _ _ => ["x"]) (fun _ => some []) "a.ts" none = [] ∧
    extract_imports (fun _ _ => ["x"]) (fun _ => none) "m.py"
        (some "def f(:") = [] :=
  ⟨c5_extraction_total.1 _ _ "a.zzz" _ (by decide),
   c5_extraction_total.2.1 _ _ "a.ts",
   c5_extraction_total.2.2 _ _ "m.py" "def f(:" ".py" (by decide) rfl⟩

/-! ### Claim C9 -/

/-- Statement of the claim's reading of the per-module violation count: the
sum, over the module's own files, of the number of distinct rule ids that
fired on imports originating from that file. -/
def spec_module_violations (vmap : ViolationMap) (m : AdjModule) : Nat :=
  (m.files.map (fun f =>
    (insertOrder ((vmap.filter (fun kv => decide (kv.1.1 = f))).foldl
      (fun acc kv => acc ++ kv.2) [])).length)).sum

/-- One-entry input whose relative import resolves to `x/y/p`. -/
def entries9d : List ImportEntry := [⟨"a/b/c.ts", ["../../x/y/p"]⟩]

/-- Violation index flagging that resolved import with two rules. -/
def vmap9d : ViolationMap := [(("a/b/c.ts", "x/y/p"), ["r2", "r1"])]
/-- The module record `build_adjacency entries9d vmap9d` emits. -/
def m9 : AdjModule := ⟨"a/b", ["a/b/c.ts"], 1, 2⟩

/-- The edge record `build_adjacency entries9d vmap9d` emits. -/
def e9 : AdjEdge :=
  ⟨"a/b", "x/y", [⟨"a/b/c.ts", "../../x/y/p"⟩], true, ["r1", "r2"]⟩
/-- Counterexample input: one file, no imports. -/
def c9CexEntriesd : List ImportEntry := [⟨"a/b/c.ts", []⟩]

/-- Counterexample violation index: the same single rule fired on two
different resolved imports of the same source file. -/
def c9CexVmapd : ViolationMap :=
  [(("a/b/c.ts", "x/y/p"), ["r1"]), (("a/b/c.ts", "x/y/q"), ["r1"])]

/-- Claim C9 (amended): with a violation index supplied, each output
module's `violations` count is the sum, over the index's
(source file, resolved import) entries whose source file maps to that
module id, of the entry's rule-id count (so a rule firing on two
distinct imports of one file counts twice, unlike the claim's per-file
distinct count); and each output edge carries the duplicate-free rule ids of
its contributing violating imports together with a `violation` flag that
is true iff that list is non-empty. -/
theorem c9_adjacency (entries : List ImportEntry) (vmap : ViolationMap) :
    (∀ m ∈ (build_adjacency entries vmap).modules,
      m.violations =
        ((vmap.filter (fun kv =>
          decide (file_to_module kv.1.1 = m.id))).map
            (fun kv => kv.2.length)).sum) ∧
    (∀ e ∈ (build_adjacency entries vmap).edges,
      e.rule_ids.Nodup ∧ List.Sorted strLe e.rule_ids ∧
      (∀ r, r ∈ e.rule_ids ↔
        r ∈ edgeContrib vmap (e.fromMod, e.toMod) entries) ∧
      (e.violation = true ↔ e.rule_ids ≠ [])) := by
  constructor
  · intro m hm
    unfold build_adjacency at hm
    simp only [List.mem_map] at hm
    obtain ⟨mid, _, rfl⟩ := hm
    exact mvcFold_eq vmap mid
  · intro e he
    unfold build_adjacency at he
    simp only [List.mem_map] at he
    obtain ⟨k, hk, rfl⟩ := he
    have hnd : ∀ k', (edgeViolRules
        (entries.foldl (processEntry vmap) ⟨[], [], []⟩) k').Nodup := by
      apply entriesFold_viol_nodup
      intro k'
      simp [edgeViolRules, alookup_nil]
    have hperm := List.perm_insertionSort strLe
      ((alookup (entries.foldl (processEntry vmap)
        ⟨[], [], []⟩).edge_violations k).getD [])
    refine ⟨?_, ?_, ?_, ?_⟩
    · exact hperm.nodup_iff.mpr (hnd k)
    · exact List.sorted_insertionSort strLe _
    · intro r
      rw [hperm.mem_iff]
      have := entriesFold_viol_mem vmap entries ⟨[], [], []⟩ k r
      simp only [edgeViolRules, alookup_nil, Option.getD_none,
        List.not_mem_nil, false_or] at this
      rw [this]
    · simp only [decide_eq_true_eq, ne_eq, List.length_pos]

/-- Witness for `c9_adjacency`: on `entries9d`/`vmap9d` the emitted
module carries count 2 and the emitted edge carries the sorted rule ids
with the flag set. -/
theorem c9_adjacency_witness :
    (m9.violations =
      ((vmap9d.filter (fun kv =>
        decide (file_to_module kv.1.1 = m9.id))).map
          (fun kv => kv.2.length)).sum) ∧
    e9.rule_ids.Nodup ∧ List.Sorted strLe e9.rule_ids ∧
    ("r1" ∈ e9.rule_ids ↔
      "r1" ∈ edgeContrib vmap9d (e9.fromMod, e9.toMod) entries9d) ∧
    (e9.violation = true ↔ e9.rule_ids ≠ []) :=
  ⟨(c9_adjacency entries9d vmap9d).1 m9 (by decide),
   ((c9_adjacency entries9d vmap9d).2 e9 (by decide)).1,
   ((c9_adjacency entries9d vmap9d).2 e9 (by decide)).2.1,
   ((c9_adjacency entries9d vmap9d).2 e9 (by decide)).2.2.1 "r1",
   ((c9_adjacency entries9d vmap9d).2 e9 (by decide)).2.2.2⟩

/-- Claim C9 counterexample: with one file and one rule firing on two
distinct resolved imports of that file, the emitted module count is 2,
while the sum over the module's files of distinct firing rule ids (the
claim's reading, `spec_module_violations`) is 1. -/
theorem c9_module_count_counterexample :
    ((build_adjacency c9CexEntriesd c9CexVmapd).modules.map
      (fun m => (m.id, m.files, m.violations)) = [("a/b", ["a/b/c.ts"], 2)]) ∧
    ((build_adjacency c9CexEntriesd c9CexVmapd).modules.map
      (spec_module_violations c9CexVmapd) = [1]) ∧
    (2 : Nat) ≠ 1 := by
  refine ⟨by decide, by decide, by decide⟩

end Thymus
